import Mathlib

/-!
Verification development for the MINDMESH browsing-memory extension.

The definitions below are a shallow embedding of the retrieval core:
the vector-search module (ANNIndex, cosineSimilarity, calculateHybridScore,
createSemanticMatch), the IndexedDB storage layer (CortexStorage), the
RecallService search pipeline and the AnalyticsService aggregations.

Modelling conventions:
* JS numbers are modelled as real numbers; NaN-producing index
  overruns are modelled as 0-padding (vectors are read componentwise).
* A JS Map is modelled as an association list in insertion order:
  setting an existing key overwrites in place, setting a fresh key appends,
  exactly as a JS Map iterates.
* A JS Set of strings is modelled as a duplicate-free list in insertion order.
* Asynchronous storage calls that may throw are modelled with Option and
  Except; a thrown exception is the value none or Except.error.
-/

open scoped Classical

/-- Lookup in the association-list model of a JS Map: first matching key wins. -/
def mapGet {α β : Type} [DecidableEq α] : List (α × β) → α → Option β
  | [], _ => none
  | (k', v) :: rest, k => if k' = k then some v else mapGet rest k

/-- Update in the association-list model of a JS Map: an existing key keeps its
position (JS Map.set keeps insertion order), a fresh key is appended. -/
def mapSet {α β : Type} [DecidableEq α] : List (α × β) → α → β → List (α × β)
  | [], k, v => [(k, v)]
  | (k', v') :: rest, k, v =>
      if k' = k then (k, v) :: rest else (k', v') :: mapSet rest k v

/-- Deletion in the association-list model of a JS Map. -/
def mapDelete {α β : Type} [DecidableEq α] (m : List (α × β)) (k : α) : List (α × β) :=
  m.filter (fun p => p.1 ≠ k)

theorem mapGet_mapSet_self {α β : Type} [DecidableEq α] (m : List (α × β)) (k : α) (v : β) :
    mapGet (mapSet m k v) k = some v := by
  induction m with
  | nil => simp [mapGet, mapSet]
  | cons p rest ih =>
      obtain ⟨k', v'⟩ := p
      by_cases h : k' = k
      · simp [mapGet, mapSet, h]
      · simp [mapGet, mapSet, h, ih]

theorem mapGet_mapSet_ne {α β : Type} [DecidableEq α] (m : List (α × β)) {k k' : α} (v : β)
    (h : k' ≠ k) : mapGet (mapSet m k v) k' = mapGet m k' := by
  have hne : ¬k = k' := fun hh => h hh.symm
  induction m with
  | nil => simp [mapGet, mapSet, hne]
  | cons p rest ih =>
      obtain ⟨k0, v0⟩ := p
      by_cases h0 : k0 = k
      · subst h0
        simp [mapGet, mapSet, hne]
      · simp only [mapSet, if_neg h0]
        by_cases h1 : k0 = k'
        · simp [mapGet, h1]
        · simp [mapGet, h1, ih]

theorem mapGet_mapDelete_self {α β : Type} [DecidableEq α] (m : List (α × β)) (k : α) :
    mapGet (mapDelete m k) k = none := by
  induction m with
  | nil => simp [mapGet, mapDelete]
  | cons p rest ih =>
      obtain ⟨k', v'⟩ := p
      by_cases h : k' = k
      · simpa [mapDelete, List.filter, h] using ih
      · simpa [mapDelete, List.filter, mapGet, h] using ih

theorem mapGet_mapDelete_ne {α β : Type} [DecidableEq α] (m : List (α × β)) {k k' : α}
    (h : k' ≠ k) : mapGet (mapDelete m k) k' = mapGet m k' := by
  have hne : ¬k = k' := fun hh => h hh.symm
  induction m with
  | nil => simp [mapGet, mapDelete]
  | cons p rest ih =>
      obtain ⟨k0, v0⟩ := p
      by_cases h0 : k0 = k
      · subst h0
        simp only [mapDelete, List.filter] at ih ⊢
        simp only [ne_eq, decide_not, decide_True, Bool.not_true]
        simpa [mapGet, hne] using ih
      · by_cases h1 : k0 = k'
        · subst h1
          simp [mapDelete, List.filter, mapGet, h0, h]
        · simp only [mapDelete, List.filter] at ih ⊢
          simpa [mapGet, h0, h1] using ih

/-- Lowercasing a string, matching JS toLowerCase on the ASCII range. -/
def lowerStr (s : String) : String := String.mk (s.data.map Char.toLower)

/-- Whether a character list starts with a given pattern. -/
def charsLeadWith : List Char → List Char → Bool
  | _, [] => true
  | [], _ :: _ => false
  | c :: cs, d :: ds => c = d && charsLeadWith cs ds

/-- Whether a character list has the pattern as a contiguous sublist. -/
def charsHaveSub : List Char → List Char → Bool
  | [], pat => pat.isEmpty
  | c :: rest, pat => charsLeadWith (c :: rest) pat || charsHaveSub rest pat

/-- Model of the JS string method includes: substring containment. -/
def strIncl (s sub : String) : Bool := charsHaveSub s.data sub.data

/-- Split into chunks at each whitespace character. -/
def splitWsAux : List Char → List Char → List (List Char)
  | [], cur => [cur.reverse]
  | c :: rest, cur =>
      if c.isWhitespace then cur.reverse :: splitWsAux rest []
      else splitWsAux rest (c :: cur)

/-- Whitespace split of a string. -/
def splitWs (s : String) : List String :=
  (splitWsAux s.data []).map (fun l => String.mk l)

/-- Model of query.toLowerCase().split on whitespace, keeping words longer
than two characters, exactly as calculateHybridScore builds queryWords.
The character-wise split produces empty chunks at consecutive separators
where the JS regex collapses runs, but the length filter removes those in
both versions, so the filtered lists coincide. -/
def queryWordsOf (query : String) : List String :=
  (splitWs (lowerStr query)).filter (fun w => 2 < w.length)

/-- Embedding record from shared extension-types: vector, model tag, timestamp. -/
structure Embedding where
  vector : List ℝ
  model : String
  timestamp : Int

/-- Node metadata as used by the retrieval core: the page domain. -/
structure NodeMetadata where
  domain : String
deriving DecidableEq

/-- MemoryNode from shared extension-types, restricted to the fields the
retrieval core reads. -/
structure MemoryNode where
  id : String
  url : String
  title : String
  readableText : String
  timestamp : Int
  keywords : List String
  metadata : NodeMetadata
deriving DecidableEq

/-- Truncated dot product, reading the first n components of both vectors and
treating missing components as 0: models the index loop of cosineSimilarity. -/
noncomputable def dotUpTo (n : Nat) (a b : List ℝ) : ℝ :=
  ∑ i ∈ Finset.range n, a.getD i 0 * b.getD i 0

/-- Model of cosineSimilarity from vector-search: returns 0 on a length
mismatch, 0 when either accumulated square norm is 0, and the normalized dot
product otherwise. The loop bound is vecA.length, as in the source. -/
noncomputable def cosineSimilarity (vecA vecB : List ℝ) : ℝ :=
  if vecA.length ≠ vecB.length then 0
  else
    let dotProduct := dotUpTo vecA.length vecA vecB
    let normA := dotUpTo vecA.length vecA vecA
    let normB := dotUpTo vecA.length vecB vecB
    if normA = 0 ∨ normB = 0 then 0
    else dotProduct / (Real.sqrt normA * Real.sqrt normB)

theorem dotUpTo_self_nonneg (n : Nat) (a : List ℝ) : 0 ≤ dotUpTo n a a :=
  Finset.sum_nonneg fun _ _ => mul_self_nonneg _

theorem dotUpTo_cauchy (n : Nat) (a b : List ℝ) :
    dotUpTo n a b ^ 2 ≤ dotUpTo n a a * dotUpTo n b b := by
  have h := Finset.sum_mul_sq_le_sq_mul_sq (Finset.range n)
    (fun i => a.getD i 0) (fun i => b.getD i 0)
  simpa [dotUpTo, sq] using h

theorem cosineSimilarity_eq_div {a b : List ℝ} (hlen : a.length = b.length)
    (hA : dotUpTo a.length a a ≠ 0) (hB : dotUpTo a.length b b ≠ 0) :
    cosineSimilarity a b =
      dotUpTo a.length a b /
        (Real.sqrt (dotUpTo a.length a a) * Real.sqrt (dotUpTo a.length b b)) := by
  have hne : ¬(dotUpTo a.length a a = 0 ∨ dotUpTo a.length b b = 0) := by
    push_neg
    exact ⟨hA, hB⟩
  simp [cosineSimilarity, ← hlen, hne]

/-- C4: cosineSimilarity returns exactly 0 whenever the two vectors have
different lengths or either accumulated square norm is 0 (so it never divides
by zero); for equal-length vectors with nonzero norms the value lies in
[-1, 1]; and the similarity of a nonzero-norm vector with itself is exactly 1. -/
theorem C4_cosine_bounds :
    (∀ a b : List ℝ, a.length ≠ b.length → cosineSimilarity a b = 0) ∧
    (∀ a b : List ℝ, a.length = b.length →
      dotUpTo a.length a a = 0 ∨ dotUpTo a.length b b = 0 → cosineSimilarity a b = 0) ∧
    (∀ a b : List ℝ, a.length = b.length →
      dotUpTo a.length a a ≠ 0 → dotUpTo a.length b b ≠ 0 →
      -1 ≤ cosineSimilarity a b ∧ cosineSimilarity a b ≤ 1) ∧
    (∀ a : List ℝ, dotUpTo a.length a a ≠ 0 → cosineSimilarity a a = 1) := by
  refine ⟨?_, ?_, ?_, ?_⟩
  · intro a b h
    simp [cosineSimilarity, h]
  · intro a b hlen hz
    simp [cosineSimilarity, ← hlen, hz]
  · intro a b hlen hA hB
    have hApos : 0 < dotUpTo a.length a a :=
      lt_of_le_of_ne (dotUpTo_self_nonneg _ _) (Ne.symm hA)
    have hBpos : 0 < dotUpTo a.length b b :=
      lt_of_le_of_ne (dotUpTo_self_nonneg _ _) (Ne.symm hB)
    have habs : |dotUpTo a.length a b| ≤
        Real.sqrt (dotUpTo a.length a a) * Real.sqrt (dotUpTo a.length b b) := by
      calc |dotUpTo a.length a b| = Real.sqrt (dotUpTo a.length a b ^ 2) :=
            (Real.sqrt_sq_eq_abs _).symm
        _ ≤ Real.sqrt (dotUpTo a.length a a * dotUpTo a.length b b) :=
            Real.sqrt_le_sqrt (dotUpTo_cauchy a.length a b)
        _ = Real.sqrt (dotUpTo a.length a a) * Real.sqrt (dotUpTo a.length b b) :=
            Real.sqrt_mul hApos.le _
    have hden : 0 < Real.sqrt (dotUpTo a.length a a) * Real.sqrt (dotUpTo a.length b b) :=
      mul_pos (Real.sqrt_pos.mpr hApos) (Real.sqrt_pos.mpr hBpos)
    rw [cosineSimilarity_eq_div hlen hA hB]
    constructor
    · rw [le_div_iff₀ hden]
      have := (abs_le.mp habs).1
      linarith
    · rw [div_le_one hden]
      exact (abs_le.mp habs).2
  · intro a hA
    have hApos : 0 < dotUpTo a.length a a :=
      lt_of_le_of_ne (dotUpTo_self_nonneg _ _) (Ne.symm hA)
    rw [cosineSimilarity_eq_div rfl hA hA, Real.mul_self_sqrt hApos.le, div_self hA]

/-- Witness for C4 at concrete vectors. -/
theorem C4_cosine_bounds_witness :
    cosineSimilarity [1, 0] [1] = 0 ∧
    cosineSimilarity [0, 0] [1, 2] = 0 ∧
    (-1 ≤ cosineSimilarity [1, 0] [0, 1] ∧ cosineSimilarity [1, 0] [0, 1] ≤ 1) ∧
    cosineSimilarity [2] [2] = 1 := by
  have h := C4_cosine_bounds
  refine ⟨h.1 [1, 0] [1] (by simp), h.2.1 [0, 0] [1, 2] (by simp) (Or.inl ?_),
    h.2.2.1 [1, 0] [0, 1] (by simp) ?_ ?_, h.2.2.2 [2] ?_⟩
  · simp [dotUpTo, Finset.sum_range_succ]
  · norm_num [dotUpTo, Finset.sum_range_succ]
  · norm_num [dotUpTo, Finset.sum_range_succ]
  · norm_num [dotUpTo, Finset.sum_range_succ]

/-- Stable insertion step of a descending sort by key: the new element passes
exactly the elements with strictly smaller key, so elements with equal keys
keep their original relative order, matching the stable JS Array.sort with
comparator (a, b) => key(b) - key(a). -/
def insertKD {α β : Type} [LinearOrder β] (key : α → β) (x : α) : List α → List α
  | [] => [x]
  | y :: ys => if key y < key x then x :: y :: ys else y :: insertKD key x ys

/-- Stable descending sort by key. -/
def sortKD {α β : Type} [LinearOrder β] (key : α → β) (l : List α) : List α :=
  l.foldl (fun acc x => insertKD key x acc) []

/-- Stable insertion step of an ascending sort by key, matching the stable
JS Array.sort with comparator (a, b) => key(a) - key(b). -/
def insertKA {α β : Type} [LinearOrder β] (key : α → β) (x : α) : List α → List α
  | [] => [x]
  | y :: ys => if key x < key y then x :: y :: ys else y :: insertKA key x ys

/-- Stable ascending sort by key. -/
def sortKA {α β : Type} [LinearOrder β] (key : α → β) (l : List α) : List α :=
  l.foldl (fun acc x => insertKA key x acc) []

theorem insertKD_perm {α β : Type} [LinearOrder β] (key : α → β) (x : α) (l : List α) :
    List.Perm (insertKD key x l) (x :: l) := by
  induction l with
  | nil => simp [insertKD]
  | cons y ys ih =>
      by_cases h : key y < key x
      · simp [insertKD, h]
      · simp only [insertKD, if_neg h]
        exact (ih.cons y).trans (List.Perm.swap _ _ _)

theorem mem_insertKD {α β : Type} [LinearOrder β] {key : α → β} {x a : α} {l : List α} :
    a ∈ insertKD key x l ↔ a = x ∨ a ∈ l :=
  by simpa using (insertKD_perm key x l).mem_iff

theorem insertKD_sorted {α β : Type} [LinearOrder β] (key : α → β) (x : α) {l : List α}
    (h : l.Pairwise (fun a b => key b ≤ key a)) :
    (insertKD key x l).Pairwise (fun a b => key b ≤ key a) := by
  induction l with
  | nil => simp [insertKD]
  | cons y ys ih =>
      rcases List.pairwise_cons.mp h with ⟨hy, hys⟩
      by_cases hlt : key y < key x
      · simp only [insertKD, if_pos hlt]
        refine List.pairwise_cons.mpr ⟨?_, h⟩
        intro b hb
        rcases List.mem_cons.mp hb with hb | hb
        · rw [hb]
          exact hlt.le
        · exact (hy b hb).trans hlt.le
      · simp only [insertKD, if_neg hlt]
        refine List.pairwise_cons.mpr ⟨?_, ih hys⟩
        intro b hb
        rcases mem_insertKD.mp hb with hb | hb
        · rw [hb]
          exact le_of_not_lt hlt
        · exact hy b hb

theorem sortKD_perm {α β : Type} [LinearOrder β] (key : α → β) (l : List α) :
    List.Perm (sortKD key l) l := by
  suffices h : ∀ (l acc : List α),
      List.Perm (l.foldl (fun acc x => insertKD key x acc) acc) (acc ++ l) by
    simpa using h l []
  intro l
  induction l with
  | nil => simp
  | cons x xs ih =>
      intro acc
      have h1 : List.Perm (xs.foldl (fun acc x => insertKD key x acc) (insertKD key x acc))
          (insertKD key x acc ++ xs) := ih _
      have h2 : List.Perm (insertKD key x acc ++ xs) ((x :: acc) ++ xs) :=
        (insertKD_perm key x acc).append_right xs
      exact (h1.trans h2).trans List.perm_middle.symm

theorem sortKD_sorted {α β : Type} [LinearOrder β] (key : α → β) (l : List α) :
    (sortKD key l).Pairwise (fun a b => key b ≤ key a) := by
  suffices h : ∀ (l acc : List α), acc.Pairwise (fun a b => key b ≤ key a) →
      (l.foldl (fun acc x => insertKD key x acc) acc).Pairwise (fun a b => key b ≤ key a) by
    exact h l [] (by simp)
  intro l
  induction l with
  | nil => intro acc hacc; simpa using hacc
  | cons x xs ih =>
      intro acc hacc
      exact ih _ (insertKD_sorted key x hacc)

theorem insertKA_perm {α β : Type} [LinearOrder β] (key : α → β) (x : α) (l : List α) :
    List.Perm (insertKA key x l) (x :: l) := by
  induction l with
  | nil => simp [insertKA]
  | cons y ys ih =>
      by_cases h : key x < key y
      · simp [insertKA, h]
      · simp only [insertKA, if_neg h]
        exact (ih.cons y).trans (List.Perm.swap _ _ _)

theorem mem_insertKA {α β : Type} [LinearOrder β] {key : α → β} {x a : α} {l : List α} :
    a ∈ insertKA key x l ↔ a = x ∨ a ∈ l :=
  by simpa using (insertKA_perm key x l).mem_iff

theorem insertKA_sorted {α β : Type} [LinearOrder β] (key : α → β) (x : α) {l : List α}
    (h : l.Pairwise (fun a b => key a ≤ key b)) :
    (insertKA key x l).Pairwise (fun a b => key a ≤ key b) := by
  induction l with
  | nil => simp [insertKA]
  | cons y ys ih =>
      rcases List.pairwise_cons.mp h with ⟨hy, hys⟩
      by_cases hlt : key x < key y
      · simp only [insertKA, if_pos hlt]
        refine List.pairwise_cons.mpr ⟨?_, h⟩
        intro b hb
        rcases List.mem_cons.mp hb with hb | hb
        · rw [hb]
          exact hlt.le
        · exact hlt.le.trans (hy b hb)
      · simp only [insertKA, if_neg hlt]
        refine List.pairwise_cons.mpr ⟨?_, ih hys⟩
        intro b hb
        rcases mem_insertKA.mp hb with hb | hb
        · rw [hb]
          exact le_of_not_lt hlt
        · exact hy b hb

theorem sortKA_perm {α β : Type} [LinearOrder β] (key : α → β) (l : List α) :
    List.Perm (sortKA key l) l := by
  suffices h : ∀ (l acc : List α),
      List.Perm (l.foldl (fun acc x => insertKA key x acc) acc) (acc ++ l) by
    simpa using h l []
  intro l
  induction l with
  | nil => simp
  | cons x xs ih =>
      intro acc
      have h1 : List.Perm (xs.foldl (fun acc x => insertKA key x acc) (insertKA key x acc))
          (insertKA key x acc ++ xs) := ih _
      have h2 : List.Perm (insertKA key x acc ++ xs) ((x :: acc) ++ xs) :=
        (insertKA_perm key x acc).append_right xs
      exact (h1.trans h2).trans List.perm_middle.symm

theorem sortKA_sorted {α β : Type} [LinearOrder β] (key : α → β) (l : List α) :
    (sortKA key l).Pairwise (fun a b => key a ≤ key b) := by
  suffices h : ∀ (l acc : List α), acc.Pairwise (fun a b => key a ≤ key b) →
      (l.foldl (fun acc x => insertKA key x acc) acc).Pairwise (fun a b => key a ≤ key b) by
    exact h l [] (by simp)
  intro l
  induction l with
  | nil => intro acc hacc; simpa using hacc
  | cons x xs ih =>
      intro acc hacc
      exact ih _ (insertKA_sorted key x hacc)

/-- Number of random hyperplanes (hash bits) in ANNIndex. -/
def numHashes : Nat := 16

/-- Embedding dimension fixed by ANNIndex. -/
def dim : Nat := 384

/-- Dot product of a vector with one projection row, looping j over the fixed
dimension exactly as computeHash does; missing components read as 0. -/
noncomputable def dotProj (row v : List ℝ) : ℝ :=
  ∑ j ∈ Finset.range dim, v.getD j 0 * row.getD j 0

/-- State of the ANNIndex class: the three maps plus the random projection
matrix drawn once in the constructor. -/
structure ANNIndex where
  vectors : List (String × List ℝ)
  hashes : List (String × Nat)
  buckets : List (Nat × List String)
  projectionMatrix : List (List ℝ)

/-- Model of ANNIndex.computeHash: bit i of the result is set iff the dot
product of the vector with projection row i is positive. -/
noncomputable def computeHash (M : List (List ℝ)) (v : List ℝ) : Nat :=
  (List.range numHashes).foldl
    (fun hash i => if 0 < dotProj (M.getD i []) v then hash ||| (1 <<< i) else hash) 0

/-- Model of ANNIndex.add: store the vector, record its hash, and append the
id to the bucket of that hash (created when absent). -/
noncomputable def ANNIndex.add (idx : ANNIndex) (nodeId : String) (vector : List ℝ) :
    ANNIndex :=
  let hash := computeHash idx.projectionMatrix vector
  { idx with
    vectors := mapSet idx.vectors nodeId vector
    hashes := mapSet idx.hashes nodeId hash
    buckets := mapSet idx.buckets hash ((mapGet idx.buckets hash).getD [] ++ [nodeId]) }

/-- Model of ANNIndex.remove: filter the id out of the bucket recorded in the
hash map (when both exist), then delete the hash and vector entries. -/
def ANNIndex.remove (idx : ANNIndex) (nodeId : String) : ANNIndex :=
  let buckets' :=
    match mapGet idx.hashes nodeId with
    | some hash =>
        match mapGet idx.buckets hash with
        | some bucket => mapSet idx.buckets hash (bucket.filter (fun id => id ≠ nodeId))
        | none => idx.buckets
    | none => idx.buckets
  { idx with
    buckets := buckets'
    hashes := mapDelete idx.hashes nodeId
    vectors := mapDelete idx.vectors nodeId }

/-- Model of ANNIndex.clear. -/
def ANNIndex.clear (idx : ANNIndex) : ANNIndex :=
  { idx with vectors := [], hashes := [], buckets := [] }

/-- Hash codes scanned by ANNIndex.search: the query hash itself followed by
each hash obtained by flipping exactly one of the 16 bits. -/
def searchHashesFor (queryHash : Nat) : List Nat :=
  queryHash :: (List.range numHashes).map (fun i => queryHash ^^^ (1 <<< i))

/-- Model of JS Set.add on the insertion-ordered candidate list. -/
def addUnique (l : List String) (id : String) : List String :=
  if id ∈ l then l else l ++ [id]

/-- Candidate ids collected from the query bucket and the 1-bit-flip buckets,
in bucket scan order, deduplicated. -/
def bucketCandidatesFromHash (idx : ANNIndex) (queryHash : Nat) : List String :=
  (searchHashesFor queryHash).foldl
    (fun acc h => ((mapGet idx.buckets h).getD []).foldl addUnique acc) []

/-- Candidates of ANNIndex.search before the small-index fallback. -/
noncomputable def bucketCandidates (idx : ANNIndex) (queryVector : List ℝ) : List String :=
  bucketCandidatesFromHash idx (computeHash idx.projectionMatrix queryVector)

/-- Fallback loop of ANNIndex.search: keep adding indexed ids, breaking right
after an addition leaves the candidate set with more than 100 elements. -/
def fallbackLoop : List String → List String → List String
  | cands, [] => cands
  | cands, id :: rest =>
      let c2 := addUnique cands id
      if 100 < c2.length then c2 else fallbackLoop c2 rest

/-- Full candidate set of ANNIndex.search: the bucket candidates, extended by
the fallback scan over all indexed ids when they number fewer than k. -/
noncomputable def searchCandidates (idx : ANNIndex) (queryVector : List ℝ) (k : Nat) :
    List String :=
  let cands := bucketCandidates idx queryVector
  if cands.length < k then fallbackLoop cands (idx.vectors.map Prod.fst)
  else cands

/-- Model of ANNIndex.search. The non-null vector lookup is modelled with
Option: a candidate without a stored vector makes the JS code throw inside
cosineSimilarity, modelled as the overall value none. Candidates are scored
with exact cosine similarity, filtered by the threshold, sorted descending by
similarity (stable) and truncated to the top k. -/
noncomputable def ANNIndex.search (idx : ANNIndex) (queryVector : List ℝ) (k : Nat)
    (threshold : ℝ) : Option (List (String × ℝ)) :=
  ((searchCandidates idx queryVector k).mapM
      (fun nodeId => (mapGet idx.vectors nodeId).map
        (fun v => (nodeId, cosineSimilarity queryVector v)))).map
    (fun scored =>
      (sortKD (fun p : String × ℝ => p.2) (scored.filter (fun p => threshold ≤ p.2))).take k)

theorem mem_addUnique {l : List String} {id a : String} :
    a ∈ addUnique l id ↔ a ∈ l ∨ a = id := by
  by_cases h : id ∈ l
  · constructor
    · intro ha
      exact Or.inl (by simpa [addUnique, h] using ha)
    · intro ha
      rcases ha with ha | ha
      · simpa [addUnique, h] using ha
      · subst ha
        simp [addUnique, h]
  · simp [addUnique, h, List.mem_append]

theorem mem_foldl_addUnique {l acc : List String} {a : String} :
    a ∈ l.foldl addUnique acc ↔ a ∈ acc ∨ a ∈ l := by
  induction l generalizing acc with
  | nil => simp
  | cons x xs ih =>
      simp only [List.foldl_cons, ih, mem_addUnique, List.mem_cons]
      tauto

theorem mem_bucketCandidatesFromHash {idx : ANNIndex} {qh : Nat} {a : String} :
    a ∈ bucketCandidatesFromHash idx qh ↔
      ∃ h ∈ searchHashesFor qh, a ∈ (mapGet idx.buckets h).getD [] := by
  have main : ∀ (hs : List Nat) (acc : List String),
      a ∈ hs.foldl (fun acc h => ((mapGet idx.buckets h).getD []).foldl addUnique acc) acc ↔
        a ∈ acc ∨ ∃ h ∈ hs, a ∈ (mapGet idx.buckets h).getD [] := by
    intro hs
    induction hs with
    | nil => simp
    | cons x xs ih =>
        intro acc
        simp only [List.foldl_cons, ih, mem_foldl_addUnique, List.mem_cons]
        constructor
        · rintro ((h | h) | h)
          · exact Or.inl h
          · exact Or.inr ⟨x, by simp, h⟩
          · rcases h with ⟨hh, hmem, hha⟩
            exact Or.inr ⟨hh, by simp [hmem], hha⟩
        · rintro (h | ⟨hh, hmem, hha⟩)
          · exact Or.inl (Or.inl h)
          · rcases hmem with rfl | hmem
            · exact Or.inl (Or.inr hha)
            · exact Or.inr ⟨hh, hmem, hha⟩
  simpa [bucketCandidatesFromHash] using main (searchHashesFor qh) []

theorem length_addUnique (l : List String) (id : String) :
    (addUnique l id).length ≤ l.length + 1 := by
  by_cases h : id ∈ l
  · simp [addUnique, h]
  · simp [addUnique, h]

theorem mem_fallbackLoop {c l : List String} {a : String}
    (h : a ∈ fallbackLoop c l) : a ∈ c ∨ a ∈ l := by
  induction l generalizing c with
  | nil => exact Or.inl (by simp [fallbackLoop] at h; exact h)
  | cons x xs ih =>
      simp only [fallbackLoop] at h
      by_cases hlen : 100 < (addUnique c x).length
      · rw [if_pos hlen] at h
        rcases mem_addUnique.mp h with h | h
        · exact Or.inl h
        · exact Or.inr (by simp [h])
      · rw [if_neg hlen] at h
        rcases ih h with h | h
        · rcases mem_addUnique.mp h with h | h
          · exact Or.inl h
          · exact Or.inr (by simp [h])
        · exact Or.inr (by simp [h])

theorem length_fallbackLoop (c l : List String) :
    (fallbackLoop c l).length ≤ max 101 (c.length + 1) := by
  induction l generalizing c with
  | nil =>
      simp only [fallbackLoop]
      exact le_max_of_le_right (Nat.le_succ _)
  | cons x xs ih =>
      simp only [fallbackLoop]
      by_cases hlen : 100 < (addUnique c x).length
      · rw [if_pos hlen]
        exact le_max_of_le_right (length_addUnique c x)
      · rw [if_neg hlen]
        refine (ih (addUnique c x)).trans ?_
        have : (addUnique c x).length + 1 ≤ 101 := by omega
        omega

theorem mapM_option_eq_some {α β : Type} {f : α → Option β} :
    ∀ {l : List α} {r : List β}, l.mapM f = some r → r = l.filterMap f := by
  intro l
  induction l with
  | nil =>
      intro r h
      simp only [List.mapM_nil, pure, Option.some.injEq] at h
      simp [← h]
  | cons x xs ih =>
      intro r h
      simp only [List.mapM_cons] at h
      cases hfx : f x with
      | none => rw [hfx] at h; simp at h
      | some y =>
          rw [hfx] at h
          cases hm : xs.mapM f with
          | none => rw [hm] at h; simp at h
          | some ys =>
              rw [hm] at h
              simp only [Option.bind_eq_bind, Option.some_bind, pure,
                Option.some.injEq] at h
              rw [List.filterMap_cons_some hfx, ← ih hm, ← h]

/-- C1 (amended): for every index state, query, k and threshold, the
candidates of ANNIndex.search are drawn from exactly the union of the bucket
for the query hash and the buckets for every hash obtained by flipping one of
the 16 bits; when these bucket candidates number at least k no fallback
happens; when they number fewer than k the fallback adds arbitrary indexed
ids but stops only once the candidate set exceeds 100 elements, so the
candidate set can reach 101 ids (one more than the 100 stated by the claim),
and in general at most max 101 (bucket candidates + 1); when the search
returns (that is, every candidate has a stored vector), the result is exactly
the candidate ids scored by cosine similarity with the query, filtered to
similarity at least the threshold, stably sorted descending by similarity and
truncated to the top k. -/
theorem C1_ann_search_characterization (idx : ANNIndex) (q : List ℝ) (k : Nat) (t : ℝ) :
    (∀ id, id ∈ bucketCandidates idx q ↔
      ∃ h ∈ searchHashesFor (computeHash idx.projectionMatrix q),
        id ∈ (mapGet idx.buckets h).getD []) ∧
    (k ≤ (bucketCandidates idx q).length →
      searchCandidates idx q k = bucketCandidates idx q) ∧
    ((bucketCandidates idx q).length < k →
      (∀ id ∈ searchCandidates idx q k,
        id ∈ bucketCandidates idx q ∨ id ∈ idx.vectors.map Prod.fst) ∧
      (searchCandidates idx q k).length ≤ max 101 ((bucketCandidates idx q).length + 1)) ∧
    (∀ res, ANNIndex.search idx q k t = some res →
      res = (sortKD (fun p : String × ℝ => p.2)
          (((searchCandidates idx q k).filterMap
            (fun nodeId => (mapGet idx.vectors nodeId).map
              (fun v => (nodeId, cosineSimilarity q v)))).filter
            (fun p => t ≤ p.2))).take k ∧
      res.length ≤ k ∧
      res.Pairwise (fun a b => b.2 ≤ a.2) ∧
      ∀ p ∈ res, t ≤ p.2 ∧ p.1 ∈ searchCandidates idx q k ∧
        ∃ v, mapGet idx.vectors p.1 = some v ∧ p.2 = cosineSimilarity q v) := by
  refine ⟨?_, ?_, ?_, ?_⟩
  · intro id
    exact mem_bucketCandidatesFromHash
  · intro hk
    simp [searchCandidates, Nat.not_lt.mpr hk]
  · intro hk
    constructor
    · intro id hid
      simp only [searchCandidates, if_pos hk] at hid
      exact mem_fallbackLoop hid
    · simp only [searchCandidates, if_pos hk]
      exact length_fallbackLoop _ _
  · intro res hres
    simp only [ANNIndex.search] at hres
    cases hm : (searchCandidates idx q k).mapM
        (fun nodeId => (mapGet idx.vectors nodeId).map
          (fun v => (nodeId, cosineSimilarity q v))) with
    | none => rw [hm] at hres; simp at hres
    | some scored =>
        rw [hm] at hres
        simp only [Option.map_some', Option.some.injEq] at hres
        have hscored := mapM_option_eq_some hm
        subst hscored
        refine ⟨by rw [← hres], ?_, ?_, ?_⟩
        · rw [← hres]
          simp
        · rw [← hres]
          exact List.Pairwise.sublist (List.take_sublist _ _) (sortKD_sorted _ _)
        · intro p hp
          rw [← hres] at hp
          have hp1 : p ∈ sortKD (fun p : String × ℝ => p.2)
              ((((searchCandidates idx q k)).filterMap
                (fun nodeId => (mapGet idx.vectors nodeId).map
                  (fun v => (nodeId, cosineSimilarity q v)))).filter
                (fun p => t ≤ p.2)) := List.take_subset _ _ hp
          have hp2 := (sortKD_perm (fun p : String × ℝ => p.2) _).mem_iff.mp hp1
          have hp3 := List.mem_filter.mp hp2
          have hp4 := List.mem_filterMap.mp hp3.1
          rcases hp4 with ⟨nodeId, hnid, hmap⟩
          rcases Option.map_eq_some'.mp hmap with ⟨v, hv, hpv⟩
          refine ⟨by simpa using of_decide_eq_true hp3.2, ?_, v, ?_, ?_⟩
          · rw [← hpv]
            exact hnid
          · rw [← hpv]
            exact hv
          · rw [← hpv]

theorem computeHash_eq_zero {M : List (List ℝ)} {v : List ℝ}
    (h : ∀ i ∈ List.range numHashes, ¬ 0 < dotProj (M.getD i []) v) :
    computeHash M v = 0 := by
  have main : ∀ (l : List Nat) (acc : Nat), (∀ i ∈ l, ¬ 0 < dotProj (M.getD i []) v) →
      l.foldl (fun hash i =>
        if 0 < dotProj (M.getD i []) v then hash ||| (1 <<< i) else hash) acc = acc := by
    intro l
    induction l with
    | nil => intro acc _; rfl
    | cons x xs ih =>
        intro acc hall
        have hx := hall x (by simp)
        simp only [List.foldl_cons, if_neg hx]
        exact ih acc (fun i hi => hall i (by simp [hi]))
  exact main _ 0 h

theorem getD_replicate_of_lt {α : Type} {x d : α} {j n : Nat} (h : j < n) :
    (List.replicate n x).getD j d = x := by
  induction n generalizing j with
  | zero => omega
  | succ n ih =>
      cases j with
      | zero => simp [List.replicate]
      | succ j =>
          simp only [List.replicate, List.getD_cons_succ]
          exact ih (by omega)

theorem dotProj_ones_negOnes :
    dotProj (List.replicate dim (1 : ℝ)) (List.replicate dim (-1 : ℝ)) = -384 := by
  have hterm : ∀ j ∈ Finset.range dim,
      (List.replicate dim (-1:ℝ)).getD j 0 * (List.replicate dim (1:ℝ)).getD j 0 = -1 := by
    intro j hj
    rw [getD_replicate_of_lt (Finset.mem_range.mp hj),
      getD_replicate_of_lt (Finset.mem_range.mp hj)]
    norm_num
  rw [dotProj, Finset.sum_congr rfl hterm]
  simp [dim]

/-- Projection matrix of the C1 counterexample: 16 copies of the all-ones row. -/
noncomputable def cexMatrix : List (List ℝ) :=
  List.replicate numHashes (List.replicate dim (1 : ℝ))

/-- The 101 node ids of the C1 counterexample. -/
def cexIds : List String := (List.range 101).map (fun n => String.append "n" (toString n))

/-- The C1 counterexample index state: the state a fresh index with matrix
cexMatrix reaches after adding the 101 ids of cexIds, each with the all-ones
vector. Every projection dot product of that vector is 384, so every bit of
its hash is set: all ids land in bucket 65535 with hash 65535 recorded. -/
noncomputable def cexIndex : ANNIndex :=
  { vectors := cexIds.map (fun id => (id, List.replicate dim (1 : ℝ)))
    hashes := cexIds.map (fun id => (id, 65535))
    buckets := [(65535, cexIds)]
    projectionMatrix := cexMatrix }

theorem computeHash_cex_query :
    computeHash cexMatrix (List.replicate dim (-1 : ℝ)) = 0 := by
  apply computeHash_eq_zero
  intro i hi
  have hrow : cexMatrix.getD i [] = List.replicate dim (1:ℝ) :=
    getD_replicate_of_lt (by simpa [numHashes] using List.mem_range.mp hi)
  rw [hrow, dotProj_ones_negOnes]
  norm_num

theorem getD_nil {α : Type} (j : Nat) (d : α) : ([] : List α).getD j d = d := by
  cases j <;> rfl

set_option maxRecDepth 4000 in
/-- Counterexample to C1 as stated: in the index state cexIndex (reachable by
101 adds) with the all-minus-one query, the bucket union is empty, yet the
candidate set after the fallback holds 101 ids: the fallback loop breaks only
once the set exceeds 100, so it adds 101 ids, one more than the at most 100
fallback ids the claim asserts. -/
theorem C1_ann_search_counterexample :
    bucketCandidates cexIndex (List.replicate dim (-1 : ℝ)) = [] ∧
    (searchCandidates cexIndex (List.replicate dim (-1 : ℝ)) 200).length = 101 := by
  have hpm : cexIndex.projectionMatrix = cexMatrix := rfl
  have hbc : bucketCandidates cexIndex (List.replicate dim (-1 : ℝ)) = [] := by
    simp only [bucketCandidates, hpm, computeHash_cex_query]
    decide
  refine ⟨hbc, ?_⟩
  have hkeys : cexIndex.vectors.map Prod.fst = cexIds := by
    show (cexIds.map (fun id => (id, List.replicate dim (1:ℝ)))).map Prod.fst = cexIds
    rw [List.map_map]
    simp [Function.comp_def]
  have h2 : searchCandidates cexIndex (List.replicate dim (-1 : ℝ)) 200 =
      fallbackLoop [] cexIds := by
    simp [searchCandidates, hbc, hkeys]
  rw [h2]
  decide

/-- Tiny concrete index state for witnesses: the empty projection matrix
makes every hash 0, and a single vector is stored. -/
noncomputable def smallIndex : ANNIndex :=
  { vectors := [("a", [(1 : ℝ)])]
    hashes := [("a", 0)]
    buckets := [(0, ["a"])]
    projectionMatrix := [] }

theorem computeHash_nil_matrix (v : List ℝ) : computeHash [] v = 0 := by
  apply computeHash_eq_zero
  intro i _
  have hz2 : dotProj (([] : List (List ℝ)).getD i []) v = 0 := by
    rw [getD_nil]
    simp [dotProj, getD_nil]
  rw [hz2]
  exact lt_irrefl 0

theorem bucketCandidates_smallIndex (q : List ℝ) :
    bucketCandidates smallIndex q = ["a"] := by
  have hpm : smallIndex.projectionMatrix = [] := rfl
  simp only [bucketCandidates, hpm, computeHash_nil_matrix]
  decide

theorem cos_one_one : cosineSimilarity [(1:ℝ)] [(1:ℝ)] = 1 := by
  have h1 : dotUpTo ([(1:ℝ)].length) [(1:ℝ)] [(1:ℝ)] = 1 := by
    simp [dotUpTo, Finset.sum_range_one]
  rw [cosineSimilarity_eq_div rfl (by rw [h1]; norm_num) (by rw [h1]; norm_num), h1]
  simp

theorem smallIndex_search_eval :
    ANNIndex.search smallIndex [(1:ℝ)] 1 0 = some [("a", (1:ℝ))] := by
  have hsc : searchCandidates smallIndex [(1:ℝ)] 1 = ["a"] := by
    simp [searchCandidates, bucketCandidates_smallIndex]
  have hget : mapGet smallIndex.vectors "a" = some [(1:ℝ)] := rfl
  have hmm : ((["a"] : List String).mapM (fun nodeId =>
      (mapGet smallIndex.vectors nodeId).map
        (fun v => (nodeId, cosineSimilarity [(1:ℝ)] v)))) = some [("a", (1:ℝ))] := by
    simp only [List.mapM_cons, List.mapM_nil, hget, Option.map_some', cos_one_one,
      Option.bind_eq_bind, Option.some_bind, pure]
  simp only [ANNIndex.search, hsc, hmm, Option.map_some']
  norm_num [sortKD, insertKD, List.filter]

/-- Witness for the amended C1 at the concrete index smallIndex: the
no-fallback case with k = 1, the fallback bound with k = 2 and the
returned-result case of a successful search. -/
theorem C1_ann_search_characterization_witness :
    searchCandidates smallIndex [(1:ℝ)] 1 = bucketCandidates smallIndex [(1:ℝ)] ∧
    (searchCandidates smallIndex [(1:ℝ)] 2).length ≤
      max 101 ((bucketCandidates smallIndex [(1:ℝ)]).length + 1) ∧
    (∀ p ∈ [(("a" : String), (1:ℝ))], (0:ℝ) ≤ p.2 ∧
      p.1 ∈ searchCandidates smallIndex [(1:ℝ)] 1 ∧
      ∃ v, mapGet smallIndex.vectors p.1 = some v ∧ p.2 = cosineSimilarity [(1:ℝ)] v) := by
  have h1 := (C1_ann_search_characterization smallIndex [(1:ℝ)] 1 0).2.1
    (by rw [bucketCandidates_smallIndex]; norm_num)
  have h2 := ((C1_ann_search_characterization smallIndex [(1:ℝ)] 2 0).2.2.1
    (by rw [bucketCandidates_smallIndex]; norm_num)).2
  have h3 := ((C1_ann_search_characterization smallIndex [(1:ℝ)] 1 0).2.2.2
    [("a", (1:ℝ))] smallIndex_search_eval).2.2.2
  exact ⟨h1, h2, h3⟩

/-- Model of calculateHybridScore from vector-search: graduated title and
domain bonuses added to the semantic similarity, with Math.min(1, score + b)
applied at each boosting step, exactly one branch per group. -/
noncomputable def calculateHybridScore (semanticSimilarity : ℝ) (node : MemoryNode)
    (query : String) : ℝ :=
  let queryLower := lowerStr query
  let titleLower := lowerStr node.title
  let domainLower := lowerStr node.metadata.domain
  let queryWords := queryWordsOf query
  let score := semanticSimilarity
  let score :=
    if titleLower = queryLower then min 1 (score + 0.4)
    else if strIncl titleLower queryLower then min 1 (score + 0.25)
    else if queryWords.all (fun word => strIncl titleLower word) then min 1 (score + 0.2)
    else if queryWords.any (fun word => strIncl titleLower word) then min 1 (score + 0.1)
    else score
  let score :=
    if strIncl domainLower queryLower then min 1 (score + 0.15)
    else if queryWords.any (fun word => strIncl domainLower word) then min 1 (score + 0.08)
    else score
  score

/-- Title bonus as the claim describes it (one branch, highest priority
first); the branch conditions are those of calculateHybridScore. -/
noncomputable def titleBonus (node : MemoryNode) (query : String) : ℝ :=
  if lowerStr node.title = lowerStr query then 0.4
  else if strIncl (lowerStr node.title) (lowerStr query) then 0.25
  else if (queryWordsOf query).all (fun word => strIncl (lowerStr node.title) word) then 0.2
  else if (queryWordsOf query).any (fun word => strIncl (lowerStr node.title) word) then 0.1
  else 0

/-- Domain bonus as the claim describes it; the branch conditions are those
of calculateHybridScore. -/
noncomputable def domainBonus (node : MemoryNode) (query : String) : ℝ :=
  if strIncl (lowerStr node.metadata.domain) (lowerStr query) then 0.15
  else if (queryWordsOf query).any
      (fun word => strIncl (lowerStr node.metadata.domain) word) then 0.08
  else 0

theorem min_boost_boost {s tb db : ℝ} (hdb : 0 ≤ db) :
    min 1 (min 1 (s + tb) + db) = min 1 (s + tb + db) := by
  rcases le_total (s + tb) 1 with h | h
  · rw [min_eq_right h]
  · rw [min_eq_left h, min_eq_left (by linarith), min_eq_left (by linarith)]

theorem calculateHybridScore_formula {s : ℝ} (node : MemoryNode) (query : String)
    (hs : s ≤ 1) :
    calculateHybridScore s node query =
      min 1 (s + titleBonus node query + domainBonus node query) := by
  simp only [calculateHybridScore, titleBonus, domainBonus]
  split_ifs <;> (try simp only [add_zero]) <;>
    first
      | rfl
      | exact (min_eq_right hs).symm
      | exact min_boost_boost (by norm_num)

theorem titleBonus_nonneg (node : MemoryNode) (query : String) :
    0 ≤ titleBonus node query := by
  simp only [titleBonus]
  split_ifs <;> norm_num

theorem domainBonus_nonneg (node : MemoryNode) (query : String) :
    0 ≤ domainBonus node query := by
  simp only [domainBonus]
  split_ifs <;> norm_num

theorem domainBonus_le (node : MemoryNode) (query : String) :
    domainBonus node query ≤ 0.15 := by
  simp only [domainBonus]
  split_ifs <;> norm_num

theorem calculateHybridScore_no_bonus {s : ℝ} (node : MemoryNode) (query : String)
    (ht : titleBonus node query = 0) (hd : domainBonus node query = 0) :
    calculateHybridScore s node query = s := by
  simp only [titleBonus] at ht
  simp only [domainBonus] at hd
  simp only [calculateHybridScore]
  split_ifs at ht hd ⊢ <;> norm_num at ht hd ⊢

/-- Convenience constructor for concrete nodes used at concrete inputs. -/
def mkNode (title domain : String) : MemoryNode :=
  { id := title, url := "", title := title, readableText := "", timestamp := 0,
    keywords := [], metadata := { domain := domain } }

/-- C2 (amended): for every node, query and semantic similarity s with
s at most 1 (every similarity the pipeline produces), the hybrid score equals
s plus the single title bonus plus, independently, the single domain bonus,
clamped to at most 1.0; when neither bonus applies the score is returned
unchanged, without the final clamp. -/
theorem C2_hybrid_score (s : ℝ) (node : MemoryNode) (query : String) :
    (s ≤ 1 → calculateHybridScore s node query =
      min 1 (s + titleBonus node query + domainBonus node query)) ∧
    (titleBonus node query = 0 → domainBonus node query = 0 →
      calculateHybridScore s node query = s) :=
  ⟨fun hs => calculateHybridScore_formula node query hs,
    fun ht hd => calculateHybridScore_no_bonus node query ht hd⟩

/-- C2 counterexample: on a node with no title or domain match the score is
returned without any clamp, so a starting similarity of 2 yields 2, above the
cap of 1.0 the claim asserts for the final score. -/
theorem C2_hybrid_score_counterexample :
    calculateHybridScore 2 (mkNode "x" "y") "zzz" = 2 ∧
    ¬ calculateHybridScore 2 (mkNode "x" "y") "zzz" ≤ 1 := by
  have ht : titleBonus (mkNode "x" "y") "zzz" = 0 := by
    simp +decide [titleBonus, mkNode]
  have hd : domainBonus (mkNode "x" "y") "zzz" = 0 := by
    simp +decide [domainBonus, mkNode]
  have h := calculateHybridScore_no_bonus (s := 2) (mkNode "x" "y") "zzz" ht hd
  exact ⟨h, by rw [h]; norm_num⟩

/-- Witness for C2 at concrete inputs: the clamped-formula case at s = 0.5
and the unchanged case for a node with no bonus. -/
theorem C2_hybrid_score_witness :
    calculateHybridScore 0.5 (mkNode "react hooks guide" "example.com") "react" =
      min 1 (0.5 + titleBonus (mkNode "react hooks guide" "example.com") "react"
        + domainBonus (mkNode "react hooks guide" "example.com") "react") ∧
    calculateHybridScore 0.7 (mkNode "x" "y") "zzz" = 0.7 := by
  refine ⟨(C2_hybrid_score 0.5 _ "react").1 (by norm_num),
    (C2_hybrid_score 0.7 (mkNode "x" "y") "zzz").2 ?_ ?_⟩
  · simp +decide [titleBonus, mkNode]
  · simp +decide [domainBonus, mkNode]

/-- C9 (amended): for a fixed semantic similarity at most 1 and a query with
at least one word-token longer than two characters, a node whose lowercased
title equals the query scores at least a node whose title merely contains the
query (and is not equal to it), which scores at least a node whose title has
no overlap with the query (not equal, not containing it, sharing no query
word). The provisos are forced: without such a word-token the all-words bonus
fires vacuously for every title, and a similarity above 1 escapes the clamp
exactly on bonus-free nodes. -/
theorem C9_hybrid_monotonicity (s : ℝ) (query : String) (nA nB nC : MemoryNode)
    (hs : s ≤ 1)
    (hA : lowerStr nA.title = lowerStr query)
    (hB : strIncl (lowerStr nB.title) (lowerStr query) = true)
    (hBne : lowerStr nB.title ≠ lowerStr query)
    (hw : queryWordsOf query ≠ [])
    (hC1 : lowerStr nC.title ≠ lowerStr query)
    (hC2 : strIncl (lowerStr nC.title) (lowerStr query) = false)
    (hC3 : ∀ w ∈ queryWordsOf query, strIncl (lowerStr nC.title) w = false) :
    calculateHybridScore s nB query ≤ calculateHybridScore s nA query ∧
    calculateHybridScore s nC query ≤ calculateHybridScore s nB query := by
  have htA : titleBonus nA query = 0.4 := by
    simp only [titleBonus, if_pos hA]
  have htB : titleBonus nB query = 0.25 := by
    simp only [titleBonus, if_neg hBne, hB, if_pos]
  have htC : titleBonus nC query = 0 := by
    have hall : ¬((queryWordsOf query).all
        (fun word => strIncl (lowerStr nC.title) word) = true) := by
      intro hcontra
      obtain ⟨w0, hw0⟩ := List.exists_mem_of_ne_nil _ hw
      have := List.all_eq_true.mp hcontra w0 hw0
      rw [hC3 w0 hw0] at this
      exact Bool.false_ne_true this
    have hany : ¬((queryWordsOf query).any
        (fun word => strIncl (lowerStr nC.title) word) = true) := by
      intro hcontra
      obtain ⟨w0, hw0, hw0t⟩ := List.any_eq_true.mp hcontra
      rw [hC3 w0 hw0] at hw0t
      exact Bool.false_ne_true hw0t
    simp only [titleBonus, if_neg hC1, hC2, Bool.false_eq_true, if_false,
      if_neg hall, if_neg hany]
  rw [calculateHybridScore_formula nA query hs, calculateHybridScore_formula nB query hs,
    calculateHybridScore_formula nC query hs, htA, htB, htC]
  have hdA := domainBonus_nonneg nA query
  have hdB := domainBonus_nonneg nB query
  have hdBle := domainBonus_le nB query
  have hdC := domainBonus_nonneg nC query
  have hdCle := domainBonus_le nC query
  constructor
  · exact min_le_min (le_refl 1) (by linarith)
  · exact min_le_min (le_refl 1) (by linarith)

/-- C9 counterexample: with the query ab, every query word-token is filtered
out as too short, so the all-words title bonus fires vacuously for the node
with no title overlap; with its domain bonus on top, that node strictly
outscores the node whose title contains the query. -/
theorem C9_hybrid_monotonicity_counterexample :
    strIncl (lowerStr (mkNode "x ab y" "zz").title) (lowerStr "ab") = true ∧
    strIncl (lowerStr (mkNode "qqq" "ab.com").title) (lowerStr "ab") = false ∧
    (∀ c ∈ ("ab" : String).data, c ∉ ((mkNode "qqq" "ab.com").title).data) ∧
    calculateHybridScore 0 (mkNode "x ab y" "zz") "ab" <
      calculateHybridScore 0 (mkNode "qqq" "ab.com") "ab" := by
  refine ⟨by decide, by decide, by decide, ?_⟩
  have htB : titleBonus (mkNode "x ab y" "zz") "ab" = 0.25 := by
    simp +decide [titleBonus, mkNode]
  have hdB : domainBonus (mkNode "x ab y" "zz") "ab" = 0 := by
    simp +decide [domainBonus, mkNode]
  have htC : titleBonus (mkNode "qqq" "ab.com") "ab" = 0.2 := by
    simp +decide [titleBonus, mkNode]
  have hdC : domainBonus (mkNode "qqq" "ab.com") "ab" = 0.15 := by
    simp +decide [domainBonus, mkNode]
  rw [calculateHybridScore_formula _ _ (by norm_num),
    calculateHybridScore_formula _ _ (by norm_num), htB, hdB, htC, hdC]
  rw [min_eq_right (by norm_num), min_eq_right (by norm_num)]
  norm_num

/-- Witness for C9 at concrete nodes with the query abc. -/
theorem C9_hybrid_monotonicity_witness :
    calculateHybridScore 0.5 (mkNode "xabcx" "zz") "abc" ≤
      calculateHybridScore 0.5 (mkNode "abc" "zz") "abc" ∧
    calculateHybridScore 0.5 (mkNode "qqq" "zz") "abc" ≤
      calculateHybridScore 0.5 (mkNode "xabcx" "zz") "abc" :=
  C9_hybrid_monotonicity 0.5 "abc" (mkNode "abc" "zz") (mkNode "xabcx" "zz")
    (mkNode "qqq" "zz") (by norm_num) (by decide) (by decide) (by decide)
    (by decide) (by decide) (by decide) (by decide)

/-- Reason record of a SemanticMatch from shared extension-types. -/
structure MatchReason where
  sharedKeywords : List String
  contextMatch : String
  semanticSimilarity : ℝ

/-- SemanticMatch from shared extension-types. -/
structure SemanticMatch where
  nodeId : String
  similarity : ℝ
  node : MemoryNode
  reason : MatchReason

/-- State of the CortexStorage layer restricted to the collections the claims
touch: the pages store, the embeddings store (keyed by nodeId) and the
in-memory ANN index cache. -/
structure CortexStorage where
  pages : List MemoryNode
  embeddings : List (String × Embedding)
  annIndex : ANNIndex

/-- Records of the pages store in timestamp-index order: ascending by
timestamp with ties broken by the primary key (the id), as IndexedDB orders
the entries of a non-unique index. -/
def idbOrdered (pages : List MemoryNode) : List MemoryNode :=
  sortKA (fun n => toLex (n.timestamp, n.id)) pages

/-- Model of CortexStorage.getAllMemoryNodes. A given limit is tested with JS
truthiness, so limit 0 falls into the unlimited branch; the limited branch
walks the timestamp index with a descending cursor collecting at most limit
records, while the unlimited branch calls getAll on the index, which returns
records in ascending index order. -/
def CortexStorage.getAllMemoryNodes (st : CortexStorage) (limit : Option Nat) :
    List MemoryNode :=
  match limit with
  | some l =>
      if l ≠ 0 then ((idbOrdered st.pages).reverse).take l
      else idbOrdered st.pages
  | none => idbOrdered st.pages

/-- Model of CortexStorage.getMemoryNode: IndexedDB get by primary key. -/
def CortexStorage.getMemoryNode (st : CortexStorage) (id : String) : Option MemoryNode :=
  st.pages.find? (fun n => n.id = id)

/-- Model of CortexStorage.deleteMemoryNode: evict the id from the ANN index,
then delete the page record and the embedding record in one readwrite
transaction spanning both stores, modelled as a single state transition. -/
def CortexStorage.deleteMemoryNode (st : CortexStorage) (id : String) : CortexStorage :=
  { pages := st.pages.filter (fun n => n.id ≠ id)
    embeddings := mapDelete st.embeddings id
    annIndex := st.annIndex.remove id }

/-- Model of CortexStorage.storeEmbedding: insert into the ANN index, then
put the record (nodeId with the three embedding fields) into the embeddings
store. -/
noncomputable def CortexStorage.storeEmbedding (st : CortexStorage) (nodeId : String)
    (embedding : Embedding) : CortexStorage :=
  { st with
    annIndex := st.annIndex.add nodeId embedding.vector
    embeddings := mapSet st.embeddings nodeId embedding }

/-- Model of CortexStorage.getEmbedding: rebuild the embedding (vector, model
tag, timestamp) from the stored record, or none when absent. -/
def CortexStorage.getEmbedding (st : CortexStorage) (nodeId : String) : Option Embedding :=
  mapGet st.embeddings nodeId

/-- Match record as vectorSearch builds it: empty reason fields around the
raw similarity. -/
def bareMatch (nodeId : String) (similarity : ℝ) (node : MemoryNode) : SemanticMatch where
  nodeId := nodeId
  similarity := similarity
  node := node
  reason := { sharedKeywords := [], contextMatch := "", semanticSimilarity := similarity }

/-- Model of CortexStorage.vectorSearch: ANN search for limit*2 candidates,
parallel node fetch, dropping ids whose node record is missing, sort by
similarity descending, slice to limit. The ANN search may throw (none). -/
noncomputable def CortexStorage.vectorSearch (st : CortexStorage) (queryVector : List ℝ)
    (limit : Nat) (threshold : ℝ) : Option (List SemanticMatch) :=
  (st.annIndex.search queryVector (limit * 2) threshold).map
    (fun candidateMatches =>
      (sortKD (fun m : SemanticMatch => m.similarity)
        (candidateMatches.filterMap (fun p =>
          (st.getMemoryNode p.1).map (fun node => bareMatch p.1 p.2 node)))).take limit)

theorem search_mem_lookup {idx : ANNIndex} {q : List ℝ} {k : Nat} {t : ℝ}
    {res : List (String × ℝ)} (hres : ANNIndex.search idx q k t = some res) :
    ∀ p ∈ res, ∃ v, mapGet idx.vectors p.1 = some v := by
  intro p hp
  simp only [ANNIndex.search] at hres
  cases hm : (searchCandidates idx q k).mapM
      (fun nodeId => (mapGet idx.vectors nodeId).map
        (fun v => (nodeId, cosineSimilarity q v))) with
  | none => rw [hm] at hres; simp at hres
  | some scored =>
      rw [hm] at hres
      simp only [Option.map_some', Option.some.injEq] at hres
      have hscored := mapM_option_eq_some hm
      subst hscored
      rw [← hres] at hp
      have hp1 := List.take_subset _ _ hp
      have hp2 := (sortKD_perm (fun p : String × ℝ => p.2) _).mem_iff.mp hp1
      have hp3 := (List.mem_filter.mp hp2).1
      rcases List.mem_filterMap.mp hp3 with ⟨nodeId, _, hmap⟩
      rcases Option.map_eq_some'.mp hmap with ⟨v, hv, hpv⟩
      exact ⟨v, by rw [← hpv]; exact hv⟩

/-- C3: after deleteMemoryNode(id) the node record and the embedding record
are both removed (the source deletes them in one transaction; the model makes
the pair removal a single state transition), the id is evicted from the
vector and hash maps of the index, and a subsequent ANNIndex.search or
vectorSearch on the resulting state that returns a result never returns id:
every returned entry requires a stored vector for its id, and id has none. -/
theorem C3_delete_node (st : CortexStorage) (id : String) :
    CortexStorage.getMemoryNode (CortexStorage.deleteMemoryNode st id) id = none ∧
    CortexStorage.getEmbedding (CortexStorage.deleteMemoryNode st id) id = none ∧
    mapGet (CortexStorage.deleteMemoryNode st id).annIndex.vectors id = none ∧
    mapGet (CortexStorage.deleteMemoryNode st id).annIndex.hashes id = none ∧
    (∀ q k t res,
      ANNIndex.search (CortexStorage.deleteMemoryNode st id).annIndex q k t = some res →
      ∀ sim, (id, sim) ∉ res) ∧
    (∀ q l t ms,
      CortexStorage.vectorSearch (CortexStorage.deleteMemoryNode st id) q l t = some ms →
      ∀ m ∈ ms, m.nodeId ≠ id) := by
  have hvec : mapGet (CortexStorage.deleteMemoryNode st id).annIndex.vectors id = none := by
    simp only [CortexStorage.deleteMemoryNode, ANNIndex.remove]
    exact mapGet_mapDelete_self _ _
  have hsearch : ∀ q k t res,
      ANNIndex.search (CortexStorage.deleteMemoryNode st id).annIndex q k t = some res →
      ∀ sim, (id, sim) ∉ res := by
    intro q k t res hres sim hmem
    rcases search_mem_lookup hres (id, sim) hmem with ⟨v, hv⟩
    rw [hvec] at hv
    exact Option.noConfusion hv
  refine ⟨?_, ?_, hvec, ?_, hsearch, ?_⟩
  · apply List.find?_eq_none.mpr
    intro x hx
    have := (List.mem_filter.mp hx).2
    simp only [ne_eq, decide_not, Bool.not_eq_true', decide_eq_false_iff_not] at this
    simp [this]
  · simp only [CortexStorage.deleteMemoryNode, CortexStorage.getEmbedding]
    exact mapGet_mapDelete_self _ _
  · simp only [CortexStorage.deleteMemoryNode, ANNIndex.remove]
    exact mapGet_mapDelete_self _ _
  · intro q l t ms hms m hm hmid
    simp only [CortexStorage.vectorSearch] at hms
    cases hs : ANNIndex.search (CortexStorage.deleteMemoryNode st id).annIndex q (l * 2) t with
    | none => rw [hs] at hms; simp at hms
    | some res =>
        rw [hs] at hms
        simp only [Option.map_some', Option.some.injEq] at hms
        rw [← hms] at hm
        have hm1 := List.take_subset _ _ hm
        have hm2 := (sortKD_perm (fun m : SemanticMatch => m.similarity) _).mem_iff.mp hm1
        rcases List.mem_filterMap.mp hm2 with ⟨p, hpres, hpmap⟩
        rcases Option.map_eq_some'.mp hpmap with ⟨node, hnode, hmeq⟩
        have hpid : p.1 = id := by rw [← hmid, ← hmeq]; rfl
        have := hsearch q (l * 2) t res hs p.2
        rw [← hpid] at this
        exact this hpres

/-- Concrete node with an explicit timestamp. -/
def mkNodeT (id : String) (ts : Int) : MemoryNode :=
  { id := id, url := "", title := id, readableText := "", timestamp := ts,
    keywords := [], metadata := { domain := "d" } }

/-- Concrete one-page storage state built on smallIndex. -/
noncomputable def smallStore : CortexStorage :=
  { pages := [mkNodeT "a" 1]
    embeddings := [("a", { vector := [(1:ℝ)], model := "wasm", timestamp := 0 })]
    annIndex := smallIndex }

theorem smallRemoved_vectors : (ANNIndex.remove smallIndex "a").vectors = [] := rfl

theorem smallRemoved_search_eval (k : Nat) :
    ANNIndex.search (ANNIndex.remove smallIndex "a") [(1:ℝ)] k 0 = some [] := by
  have hpm : (ANNIndex.remove smallIndex "a").projectionMatrix = [] := rfl
  have hbc : bucketCandidates (ANNIndex.remove smallIndex "a") [(1:ℝ)] = [] := by
    simp only [bucketCandidates, hpm, computeHash_nil_matrix]
    decide
  have hsc : searchCandidates (ANNIndex.remove smallIndex "a") [(1:ℝ)] k = [] := by
    simp [searchCandidates, hbc, smallRemoved_vectors, fallbackLoop]
  simp only [ANNIndex.search, hsc, List.mapM_nil, pure, Option.map_some', Option.some.injEq]
  simp [sortKD]

theorem smallStore_vectorSearch_eval :
    CortexStorage.vectorSearch (CortexStorage.deleteMemoryNode smallStore "a")
      [(1:ℝ)] 1 0 = some [] := by
  have h : ANNIndex.search (CortexStorage.deleteMemoryNode smallStore "a").annIndex
      [(1:ℝ)] (1 * 2) 0 = some [] := smallRemoved_search_eval 2
  simp [CortexStorage.vectorSearch, h, sortKD]

/-- Witness for C3 at a concrete one-node store. -/
theorem C3_delete_node_witness :
    CortexStorage.getMemoryNode (CortexStorage.deleteMemoryNode smallStore "a") "a" = none ∧
    (∀ sim : ℝ, ("a", sim) ∉ ([] : List (String × ℝ))) ∧
    (∀ m ∈ ([] : List SemanticMatch), m.nodeId ≠ "a") :=
  ⟨(C3_delete_node smallStore "a").1,
    fun sim => (C3_delete_node smallStore "a").2.2.2.2.1 [(1:ℝ)] 2 0 []
      (smallRemoved_search_eval 2) sim,
    fun m hm => (C3_delete_node smallStore "a").2.2.2.2.2 [(1:ℝ)] 1 0 []
      smallStore_vectorSearch_eval m hm⟩

/-- C7: storeEmbedding followed by getEmbedding on the same id returns the
stored embedding bit-for-bit: the record and each of its three components
(vector, model tag, timestamp) round-trip exactly. -/
theorem C7_embedding_round_trip (st : CortexStorage) (nodeId : String) (e : Embedding) :
    CortexStorage.getEmbedding (CortexStorage.storeEmbedding st nodeId e) nodeId = some e ∧
    ∃ e', CortexStorage.getEmbedding (CortexStorage.storeEmbedding st nodeId e) nodeId =
        some e' ∧
      e'.vector = e.vector ∧ e'.model = e.model ∧ e'.timestamp = e.timestamp := by
  have h : CortexStorage.getEmbedding (CortexStorage.storeEmbedding st nodeId e) nodeId =
      some e := mapGet_mapSet_self _ _ _
  exact ⟨h, e, h, rfl, rfl, rfl⟩

/-- C6 (amended): getAllMemoryNodes with a nonzero limit returns at most
limit nodes, a prefix of the whole store arranged descending by timestamp
(the most recent ones); without a limit, or with limit 0 (falsy in JS, so it
takes the unlimited branch), it returns all stored nodes in ASCENDING
timestamp order, since IndexedDB getAll on the index returns ascending key
order. -/
theorem C6_get_all_memory_nodes (st : CortexStorage) (l : Nat) :
    (∃ all, List.Perm all st.pages ∧
      all.Pairwise (fun a b => a.timestamp ≤ b.timestamp) ∧
      CortexStorage.getAllMemoryNodes st none = all) ∧
    (l ≠ 0 → ∃ all, List.Perm all st.pages ∧
      all.Pairwise (fun a b => b.timestamp ≤ a.timestamp) ∧
      CortexStorage.getAllMemoryNodes st (some l) = all.take l) ∧
    CortexStorage.getAllMemoryNodes st (some 0) = CortexStorage.getAllMemoryNodes st none := by
  have hasc : (idbOrdered st.pages).Pairwise (fun a b => a.timestamp ≤ b.timestamp) := by
    refine ((sortKA_sorted (fun n : MemoryNode => toLex (n.timestamp, n.id)) st.pages).imp ?_)
    intro a b hab
    rcases (Prod.Lex.le_iff _ _).mp hab with h | h
    · exact le_of_lt h
    · exact le_of_eq h.1
  refine ⟨⟨idbOrdered st.pages, sortKA_perm _ _, hasc, rfl⟩, ?_, by
    simp [CortexStorage.getAllMemoryNodes]⟩
  intro hl
  refine ⟨(idbOrdered st.pages).reverse,
    (List.reverse_perm _).trans (sortKA_perm _ _), ?_, ?_⟩
  · exact (List.pairwise_reverse).mpr hasc
  · simp [CortexStorage.getAllMemoryNodes, hl]

/-- Two-node store, captured newest first, with an empty index. -/
def cexStore : CortexStorage :=
  { pages := [mkNodeT "b" 2, mkNodeT "a" 1]
    embeddings := []
    annIndex := { vectors := [], hashes := [], buckets := [], projectionMatrix := [] } }

/-- C6 counterexample: in the unlimited form (and for limit 0, which JS
treats as falsy) the oldest node comes back FIRST: the order is ascending by
timestamp, not the descending order the claim asserts for every form. -/
theorem C6_get_all_memory_nodes_counterexample :
    CortexStorage.getAllMemoryNodes cexStore none = [mkNodeT "a" 1, mkNodeT "b" 2] ∧
    CortexStorage.getAllMemoryNodes cexStore (some 0) = [mkNodeT "a" 1, mkNodeT "b" 2] ∧
    (mkNodeT "a" 1).timestamp < (mkNodeT "b" 2).timestamp := by
  have hlt : toLex ((mkNodeT "a" 1).timestamp, (mkNodeT "a" 1).id) <
      toLex ((mkNodeT "b" 2).timestamp, (mkNodeT "b" 2).id) := by
    rw [Prod.Lex.lt_iff]
    left
    simp [mkNodeT]
  have hord : idbOrdered cexStore.pages = [mkNodeT "a" 1, mkNodeT "b" 2] := by
    show sortKA (fun n : MemoryNode => toLex (n.timestamp, n.id))
      [mkNodeT "b" 2, mkNodeT "a" 1] = _
    simp only [sortKA, List.foldl_cons, List.foldl_nil, insertKA]
    rw [if_pos hlt]
  refine ⟨?_, ?_, by simp [mkNodeT]⟩
  · simp [CortexStorage.getAllMemoryNodes, hord]
  · simp [CortexStorage.getAllMemoryNodes, hord]

/-- Witness for C6 at the concrete two-node store with limit 1. -/
theorem C6_get_all_memory_nodes_witness :
    ∃ all, List.Perm all cexStore.pages ∧
      all.Pairwise (fun a b => b.timestamp ≤ a.timestamp) ∧
      CortexStorage.getAllMemoryNodes cexStore (some 1) = all.take 1 :=
  (C6_get_all_memory_nodes cexStore 1).2.1 (by decide)

/-- Model of findSharedKeywords: the node keywords whose lowercase form is
among the query words longer than three characters. -/
def findSharedKeywords (queryText : String) (node : MemoryNode) : List String :=
  let queryWords := (splitWs (lowerStr queryText)).filter (fun w => 3 < w.length)
  node.keywords.filter (fun kw => lowerStr kw ∈ queryWords)

/-- Model of generateContextMatch: the priority-ordered explanation label. -/
def generateContextMatch (queryText : String) (node : MemoryNode) : String :=
  let queryLower := lowerStr queryText
  let titleLower := lowerStr node.title
  let textLower := String.mk ((lowerStr node.readableText).data.take 500)
  let domainLower := lowerStr node.metadata.domain
  if titleLower = queryLower then "Exact title match"
  else if strIncl titleLower queryLower then "Title contains query terms"
  else if strIncl domainLower queryLower then "Domain contains query terms"
  else if strIncl textLower queryLower then "Content contains query terms"
  else if node.keywords.any (fun kw => strIncl queryLower (lowerStr kw)) then
    "Shared keywords match"
  else "Semantic similarity match"

/-- Model of createSemanticMatch. -/
def createSemanticMatch (node : MemoryNode) (similarity : ℝ) (queryText : String) :
    SemanticMatch where
  nodeId := node.id
  similarity := similarity
  node := node
  reason :=
    { sharedKeywords := findSharedKeywords queryText node
      contextMatch := generateContextMatch queryText node
      semanticSimilarity := similarity }

/-- RecallResult record returned by RecallService.search. The source field
name matches is a reserved word in Lean, hence the primed field name. -/
structure RecallResult where
  matches' : List SemanticMatch
  query : String
  timestamp : Int
  totalResults : Nat

/-- One step of the merge: keep per nodeId the match with the strictly higher
score, preserving the first insertion position, as the JS Map update does. -/
noncomputable def insertBest (acc : List (String × SemanticMatch)) (m : SemanticMatch) :
    List (String × SemanticMatch) :=
  match mapGet acc m.nodeId with
  | none => acc ++ [(m.nodeId, m)]
  | some existing =>
      if existing.similarity < m.similarity then mapSet acc m.nodeId m else acc

/-- Model of RecallService.search. The three fallible collaborators
(generateEmbedding, cortexStorage.vectorSearch, cortexStorage.searchMemoryNodes)
are parameters that either throw (Except.error) or return a value; the try
block around the whole body catches any error and returns the empty result
with totalResults 0, Date.now() being the now parameter. -/
noncomputable def RecallService.search (genEmbedding : Except String Embedding)
    (vecSearch : List ℝ → Nat → ℝ → Except String (List SemanticMatch))
    (kwSearch : String → Nat → Except String (List MemoryNode))
    (now : Int) (query : String) (limit : Nat) (threshold : ℝ) : RecallResult :=
  match genEmbedding with
  | Except.error _ => { matches' := [], query := query, timestamp := now, totalResults := 0 }
  | Except.ok queryEmbedding =>
      match vecSearch queryEmbedding.vector (limit * 2) threshold with
      | Except.error _ =>
          { matches' := [], query := query, timestamp := now, totalResults := 0 }
      | Except.ok semanticMatches =>
          match kwSearch query limit with
          | Except.error _ =>
              { matches' := [], query := query, timestamp := now, totalResults := 0 }
          | Except.ok keywordNodes =>
              let boostedMatches := semanticMatches.map (fun m =>
                { m with similarity := calculateHybridScore m.similarity m.node query })
              let keywordMatches := keywordNodes.map (fun node =>
                createSemanticMatch node (calculateHybridScore 0.5 node query) query)
              let allMatches := boostedMatches ++ keywordMatches
              let uniqueMatches := allMatches.foldl insertBest []
              let finalMatches :=
                (sortKD (fun m : SemanticMatch => m.similarity)
                  (uniqueMatches.map Prod.snd)).take limit
              { matches' := finalMatches, query := query, timestamp := now,
                totalResults := finalMatches.length }

/-- C5: if embedding generation, the vector-index search or the keyword scan
throws during RecallService.search, the call still returns (the catch
absorbs the error) with an empty matches array and totalResults 0. -/
theorem C5_search_absorbs_failures (genEmbedding : Except String Embedding)
    (vecSearch : List ℝ → Nat → ℝ → Except String (List SemanticMatch))
    (kwSearch : String → Nat → Except String (List MemoryNode))
    (now : Int) (query : String) (limit : Nat) (t : ℝ)
    (hfail : (∃ e, genEmbedding = Except.error e) ∨
      (∃ emb e, genEmbedding = Except.ok emb ∧
        vecSearch emb.vector (limit * 2) t = Except.error e) ∨
      (∃ emb sm e, genEmbedding = Except.ok emb ∧
        vecSearch emb.vector (limit * 2) t = Except.ok sm ∧
        kwSearch query limit = Except.error e)) :
    RecallService.search genEmbedding vecSearch kwSearch now query limit t =
      { matches' := [], query := query, timestamp := now, totalResults := 0 } := by
  rcases hfail with ⟨e, he⟩ | ⟨emb, e, hok, he⟩ | ⟨emb, sm, e, hok, hvs, he⟩
  · simp [RecallService.search, he]
  · simp [RecallService.search, hok, he]
  · simp [RecallService.search, hok, hvs, he]

/-- Witness for C5: each of the three failure points at concrete inputs. -/
theorem C5_search_absorbs_failures_witness :
    RecallService.search (Except.error "boom")
      (fun _ _ _ => Except.ok []) (fun _ _ => Except.ok []) 0 "q" 10 0.3 =
      { matches' := [], query := "q", timestamp := 0, totalResults := 0 } ∧
    RecallService.search (Except.ok { vector := [], model := "wasm", timestamp := 0 })
      (fun _ _ _ => Except.error "vs") (fun _ _ => Except.ok []) 0 "q" 10 0.3 =
      { matches' := [], query := "q", timestamp := 0, totalResults := 0 } ∧
    RecallService.search (Except.ok { vector := [], model := "wasm", timestamp := 0 })
      (fun _ _ _ => Except.ok []) (fun _ _ => Except.error "kw") 0 "q" 10 0.3 =
      { matches' := [], query := "q", timestamp := 0, totalResults := 0 } :=
  ⟨C5_search_absorbs_failures _ _ _ _ _ _ _ (Or.inl ⟨"boom", rfl⟩),
    C5_search_absorbs_failures _ _ _ _ _ _ _
      (Or.inr (Or.inl ⟨{ vector := [], model := "wasm", timestamp := 0 }, "vs", rfl, rfl⟩)),
    C5_search_absorbs_failures _ _ _ _ _ _ _
      (Or.inr (Or.inr ⟨{ vector := [], model := "wasm", timestamp := 0 }, [], "kw",
        rfl, rfl, rfl⟩))⟩

/-- Operations of the vector index considered by the invariant claim. -/
inductive IndexOp
  | add (nodeId : String) (vector : List ℝ)
  | remove (nodeId : String)
  | clear

/-- Apply one index operation. -/
noncomputable def applyOp (idx : ANNIndex) : IndexOp → ANNIndex
  | IndexOp.add nodeId vector => idx.add nodeId vector
  | IndexOp.remove nodeId => idx.remove nodeId
  | IndexOp.clear => idx.clear

/-- Apply a sequence of index operations in order. -/
noncomputable def applyOps (idx : ANNIndex) (ops : List IndexOp) : ANNIndex :=
  ops.foldl applyOp idx

/-- The ids passed to add over a sequence of operations, in order. -/
def addedIds : List IndexOp → List String
  | [] => []
  | IndexOp.add nodeId _ :: rest => nodeId :: addedIds rest
  | IndexOp.remove _ :: rest => addedIds rest
  | IndexOp.clear :: rest => addedIds rest

/-- Index well-formedness: every id found in a looked-up bucket has that
bucket recorded as its hash, and every recorded hash comes with a stored
vector. -/
structure ANNIndex.WF (idx : ANNIndex) : Prop where
  bucketHash : ∀ b l, mapGet idx.buckets b = some l →
    ∀ id ∈ l, mapGet idx.hashes id = some b
  hashVector : ∀ id h, mapGet idx.hashes id = some h →
    ∃ v, mapGet idx.vectors id = some v

/-- An id is fresh for an index state: no hash, no vector, in no bucket. -/
def freshFor (idx : ANNIndex) (id : String) : Prop :=
  mapGet idx.hashes id = none ∧ mapGet idx.vectors id = none ∧
    ∀ b l, mapGet idx.buckets b = some l → id ∉ l

theorem WF_empty (M : List (List ℝ)) : ANNIndex.WF (ANNIndex.mk [] [] [] M) := by
  constructor
  · intro b l hb
    simp [mapGet] at hb
  · intro id h hh
    simp [mapGet] at hh

theorem WF_clear {idx : ANNIndex} : ANNIndex.WF idx.clear := by
  constructor
  · intro b l hb
    simp [ANNIndex.clear, mapGet] at hb
  · intro id h hh
    simp [ANNIndex.clear, mapGet] at hh

theorem freshFor_clear {idx : ANNIndex} (id : String) : freshFor idx.clear id := by
  refine ⟨by simp [ANNIndex.clear, mapGet], by simp [ANNIndex.clear, mapGet], ?_⟩
  intro b l hb
  simp [ANNIndex.clear, mapGet] at hb

theorem WF_add {idx : ANNIndex} {id : String} {v : List ℝ} (hwf : ANNIndex.WF idx)
    (hfresh : freshFor idx id) : ANNIndex.WF (idx.add id v) := by
  obtain ⟨hfh, hfv, hfb⟩ := hfresh
  simp only [ANNIndex.add]
  generalize computeHash idx.projectionMatrix v = hv
  constructor
  · intro b l hb id' hid'
    by_cases hbh : b = hv
    · subst hbh
      rw [mapGet_mapSet_self] at hb
      have hl := Option.some.inj hb
      rw [← hl] at hid'
      rcases List.mem_append.mp hid' with hold | hnew
      · have hbucket : ∀ id0 ∈ (mapGet idx.buckets b).getD [],
            mapGet idx.hashes id0 = some b := by
          cases hm : mapGet idx.buckets b with
          | none => intro id0 h0; simp [hm] at h0
          | some l0 =>
              intro id0 h0
              exact hwf.bucketHash b l0 hm id0 (by simpa [hm] using h0)
        have hh' := hbucket id' hold
        have hne : id' ≠ id := by
          intro he
          rw [he, hfh] at hh'
          exact Option.noConfusion hh'
        rw [mapGet_mapSet_ne _ _ hne]
        exact hh'
      · have heq : id' = id := by simpa using hnew
        subst heq
        exact mapGet_mapSet_self _ _ _
    · rw [mapGet_mapSet_ne _ _ hbh] at hb
      have hh' := hwf.bucketHash b l hb id' hid'
      have hne : id' ≠ id := by
        intro he
        subst he
        exact hfb b l hb hid'
      rw [mapGet_mapSet_ne _ _ hne]
      exact hh'
  · intro id' h hh
    by_cases hne : id' = id
    · subst hne
      exact ⟨v, mapGet_mapSet_self _ _ _⟩
    · rw [mapGet_mapSet_ne _ _ hne] at hh
      rcases hwf.hashVector id' h hh with ⟨v', hv'⟩
      exact ⟨v', by rw [mapGet_mapSet_ne _ _ hne]; exact hv'⟩

theorem WF_remove {idx : ANNIndex} {id : String} (hwf : ANNIndex.WF idx) :
    ANNIndex.WF (idx.remove id) := by
  simp only [ANNIndex.remove]
  constructor
  · intro b l hb id' hid'
    have main : mapGet idx.hashes id' = some b ∧ id' ≠ id := by
      cases hh : mapGet idx.hashes id with
      | none =>
          simp only [hh] at hb
          have h1 := hwf.bucketHash b l hb id' hid'
          refine ⟨h1, ?_⟩
          intro he
          rw [he, hh] at h1
          exact Option.noConfusion h1
      | some hs =>
          simp only [hh] at hb
          cases hbk : mapGet idx.buckets hs with
          | none =>
              simp only [hbk] at hb
              have h1 := hwf.bucketHash b l hb id' hid'
              refine ⟨h1, ?_⟩
              intro he
              subst he
              rw [hh] at h1
              have hbs : b = hs := (Option.some.inj h1).symm
              rw [hbs] at hb
              rw [hb] at hbk
              exact Option.noConfusion hbk
          | some bucket =>
              simp only [hbk] at hb
              by_cases hbh : b = hs
              · subst hbh
                rw [mapGet_mapSet_self] at hb
                have hl := Option.some.inj hb
                rw [← hl] at hid'
                have h2 := List.mem_filter.mp hid'
                have hne : id' ≠ id := by
                  have := h2.2
                  simpa using this
                exact ⟨hwf.bucketHash b bucket hbk id' h2.1, hne⟩
              · rw [mapGet_mapSet_ne _ _ hbh] at hb
                have h1 := hwf.bucketHash b l hb id' hid'
                refine ⟨h1, ?_⟩
                intro he
                subst he
                rw [hh] at h1
                exact hbh (Option.some.inj h1).symm
    rw [mapGet_mapDelete_ne idx.hashes main.2]
    exact main.1
  · intro id' h hh
    by_cases hne : id' = id
    · subst hne
      rw [mapGet_mapDelete_self] at hh
      exact Option.noConfusion hh
    · rw [mapGet_mapDelete_ne _ hne] at hh
      rcases hwf.hashVector id' h hh with ⟨v', hv'⟩
      exact ⟨v', by rw [mapGet_mapDelete_ne _ hne]; exact hv'⟩

theorem freshFor_add {idx : ANNIndex} {id id' : String} {v : List ℝ}
    (hfresh : freshFor idx id') (hne : id' ≠ id) : freshFor (idx.add id v) id' := by
  obtain ⟨hfh, hfv, hfb⟩ := hfresh
  simp only [ANNIndex.add]
  generalize computeHash idx.projectionMatrix v = hv
  refine ⟨by rw [mapGet_mapSet_ne _ _ hne]; exact hfh,
    by rw [mapGet_mapSet_ne _ _ hne]; exact hfv, ?_⟩
  intro b l hb hmem
  by_cases hbh : b = hv
  · subst hbh
    rw [mapGet_mapSet_self] at hb
    have hl := Option.some.inj hb
    rw [← hl] at hmem
    rcases List.mem_append.mp hmem with hold | hnew
    · cases hm : mapGet idx.buckets b with
      | none => simp [hm] at hold
      | some l0 => exact hfb b l0 hm (by simpa [hm] using hold)
    · exact hne (by simpa using hnew)
  · rw [mapGet_mapSet_ne _ _ hbh] at hb
    exact hfb b l hb hmem

theorem freshFor_remove {idx : ANNIndex} {id rid : String}
    (hfresh : freshFor idx id) : freshFor (idx.remove rid) id := by
  obtain ⟨hfh, hfv, hfb⟩ := hfresh
  simp only [ANNIndex.remove]
  refine ⟨?_, ?_, ?_⟩
  · by_cases hne : id = rid
    · subst hne
      exact mapGet_mapDelete_self _ _
    · rw [mapGet_mapDelete_ne _ hne]
      exact hfh
  · by_cases hne : id = rid
    · subst hne
      exact mapGet_mapDelete_self _ _
    · rw [mapGet_mapDelete_ne _ hne]
      exact hfv
  · intro b l hb hmem
    cases hh : mapGet idx.hashes rid with
    | none =>
        simp only [hh] at hb
        exact hfb b l hb hmem
    | some hs =>
        simp only [hh] at hb
        cases hbk : mapGet idx.buckets hs with
        | none =>
            simp only [hbk] at hb
            exact hfb b l hb hmem
        | some bucket =>
            simp only [hbk] at hb
            by_cases hbh : b = hs
            · subst hbh
              rw [mapGet_mapSet_self] at hb
              have hl := Option.some.inj hb
              rw [← hl] at hmem
              exact hfb b bucket hbk (List.mem_filter.mp hmem).1
            · rw [mapGet_mapSet_ne _ _ hbh] at hb
              exact hfb b l hb hmem

theorem applyOps_WF {idx : ANNIndex} (hwf : ANNIndex.WF idx) :
    ∀ {ops : List IndexOp}, (addedIds ops).Nodup →
    (∀ id ∈ addedIds ops, freshFor idx id) → ANNIndex.WF (applyOps idx ops) := by
  intro ops
  induction ops generalizing idx with
  | nil => intro _ _; exact hwf
  | cons op rest ih =>
      intro hnodup hfresh
      cases op with
      | add nodeId vector =>
          simp only [addedIds] at hnodup hfresh
          have hfid := hfresh nodeId (by simp)
          refine ih (WF_add hwf hfid) (List.nodup_cons.mp hnodup).2 ?_
          intro id' hid'
          exact freshFor_add (hfresh id' (by simp [hid'])) (by
            intro he
            exact (List.nodup_cons.mp hnodup).1 (he ▸ hid'))
      | remove nodeId =>
          simp only [addedIds] at hnodup hfresh
          exact ih (WF_remove hwf) hnodup (fun id' hid' => freshFor_remove (hfresh id' hid'))
      | clear =>
          simp only [addedIds] at hnodup hfresh
          exact ih WF_clear hnodup (fun id' _ => freshFor_clear id')

theorem mapGet_of_mem_keys {α β : Type} [DecidableEq α] {m : List (α × β)} {k : α}
    (h : k ∈ m.map Prod.fst) : ∃ v, mapGet m k = some v := by
  induction m with
  | nil => simp at h
  | cons p rest ih =>
      obtain ⟨k', v'⟩ := p
      by_cases hk : k' = k
      · exact ⟨v', by simp [mapGet, hk]⟩
      · have hmem : k ∈ rest.map Prod.fst := by
          simp only [List.map_cons, List.mem_cons] at h
          rcases h with h1 | h1
          · exact absurd h1.symm hk
          · exact h1
        rcases ih hmem with ⟨v, hv⟩
        exact ⟨v, by simp [mapGet, hk, hv]⟩

theorem mapM_option_ne_none {α β : Type} {f : α → Option β} :
    ∀ {l : List α}, (∀ x ∈ l, f x ≠ none) → l.mapM f ≠ none := by
  intro l
  induction l with
  | nil =>
      intro _ h
      exact Option.noConfusion h
  | cons x xs ih =>
      intro hall h
      rw [List.mapM_cons] at h
      cases hfx : f x with
      | none => exact hall x (by simp) hfx
      | some y =>
          rw [hfx] at h
          cases hm : xs.mapM f with
          | none => exact ih (fun z hz => hall z (by simp [hz])) hm
          | some ys =>
              rw [hm] at h
              simp at h

theorem mem_searchCandidates {idx : ANNIndex} {q : List ℝ} {k : Nat} {id : String}
    (h : id ∈ searchCandidates idx q k) :
    id ∈ bucketCandidates idx q ∨ id ∈ idx.vectors.map Prod.fst := by
  simp only [searchCandidates] at h
  by_cases hlen : (bucketCandidates idx q).length < k
  · rw [if_pos hlen] at h
    exact mem_fallbackLoop h
  · rw [if_neg hlen] at h
    exact Or.inl h

/-- C10: starting from a fresh index with any projection matrix, after every
sequence of add, remove and clear operations in which no node id is ever
added a second time, every node id occurring in any hash bucket also has an
entry in the vector map; consequently the non-null vector lookup performed by
search for each candidate never encounters a missing vector, and search never
throws (its Option value is never none). -/
theorem C10_index_invariant (M : List (List ℝ)) (ops : List IndexOp)
    (hnodup : (addedIds ops).Nodup) :
    (∀ b l, mapGet (applyOps (ANNIndex.mk [] [] [] M) ops).buckets b = some l →
      ∀ id ∈ l, ∃ v, mapGet (applyOps (ANNIndex.mk [] [] [] M) ops).vectors id = some v) ∧
    (∀ q k t, ANNIndex.search (applyOps (ANNIndex.mk [] [] [] M) ops) q k t ≠ none) := by
  have hwf : ANNIndex.WF (applyOps (ANNIndex.mk [] [] [] M) ops) :=
    applyOps_WF (WF_empty M) hnodup
      (fun id _ => ⟨rfl, rfl, by intro b l hb; simp [mapGet] at hb⟩)
  have hbv : ∀ b l, mapGet (applyOps (ANNIndex.mk [] [] [] M) ops).buckets b = some l →
      ∀ id ∈ l, ∃ v, mapGet (applyOps (ANNIndex.mk [] [] [] M) ops).vectors id = some v := by
    intro b l hb id hid
    exact hwf.hashVector id b (hwf.bucketHash b l hb id hid)
  refine ⟨hbv, ?_⟩
  intro q k t hnone
  simp only [ANNIndex.search, Option.map_eq_none'] at hnone
  refine mapM_option_ne_none ?_ hnone
  intro id hid hlook
  rw [Option.map_eq_none'] at hlook
  rcases mem_searchCandidates hid with hbc | hkeys
  · rcases mem_bucketCandidatesFromHash.mp hbc with ⟨h, _, hmem⟩
    cases hb : mapGet (applyOps (ANNIndex.mk [] [] [] M) ops).buckets h with
    | none => simp [hb] at hmem
    | some l =>
        rcases hbv h l hb id (by simpa [hb] using hmem) with ⟨v, hv⟩
        rw [hv] at hlook
        exact Option.noConfusion hlook
  · rcases mapGet_of_mem_keys hkeys with ⟨v, hv⟩
    rw [hv] at hlook
    exact Option.noConfusion hlook

/-- Concrete operation sequence for the C10 witness: distinct add ids with a
remove in between. -/
def wOps : List IndexOp :=
  [IndexOp.add "a" [], IndexOp.remove "a", IndexOp.add "b" []]

/-- Witness for C10 at the concrete operation sequence wOps. -/
theorem C10_index_invariant_witness :
    (∀ b l, mapGet (applyOps (ANNIndex.mk [] [] [] []) wOps).buckets b = some l →
      ∀ id ∈ l, ∃ v, mapGet (applyOps (ANNIndex.mk [] [] [] []) wOps).vectors id = some v) ∧
    ANNIndex.search (applyOps (ANNIndex.mk [] [] [] []) wOps) [] 1 0 ≠ none :=
  ⟨(C10_index_invariant [] wOps (by decide)).1,
    (C10_index_invariant [] wOps (by decide)).2 [] 1 0⟩

/-- DailyStats entry of the analytics service. -/
structure DailyStats where
  date : String
  count : Nat

/-- MonthlyStats entry of the analytics service. -/
structure MonthlyStats where
  month : String
  count : Nat

/-- YearlyStats entry of the analytics service. -/
structure YearlyStats where
  year : String
  count : Nat

/-- TopSite entry of the analytics service. -/
structure TopSite where
  domain : String
  count : Nat
  percentage : ℝ
  lastVisit : Int

/-- TopCategory entry of the analytics service. -/
structure TopCategory where
  category : String
  count : Nat
  percentage : ℝ

/-- AnalyticsData record of the analytics service, the date range flattened
into two fields. -/
structure AnalyticsData where
  daily : List DailyStats
  monthly : List MonthlyStats
  yearly : List YearlyStats
  topSites : List TopSite
  topCategories : List TopCategory
  totalPages : Nat
  uniqueDomains : Nat
  dateRangeStart : Int
  dateRangeEnd : Int

/-- Counting-map update, modelling map.set(key, (map.get(key) or 0) + 1). -/
def bumpCount (m : List (String × Nat)) (key : String) : List (String × Nat) :=
  mapSet m key ((mapGet m key).getD 0 + 1)

/-- Model of calculateDailyStats, parameterized by the host calendar function
dayOf taking a timestamp to its local YYYY-MM-DD string (the source builds it
from the local-time Date fields); entries are sorted by date string
(localeCompare modelled as string order; the count sum is order-free). -/
noncomputable def calculateDailyStats (dayOf : Int → String) (nodes : List MemoryNode) :
    List DailyStats :=
  let dailyMap := nodes.foldl (fun m node => bumpCount m (dayOf node.timestamp)) []
  sortKA (fun d : DailyStats => d.date)
    (dailyMap.map (fun p => { date := p.1, count := p.2 }))

/-- Model of calculateMonthlyStats with the host month key. -/
noncomputable def calculateMonthlyStats (monthOf : Int → String) (nodes : List MemoryNode) :
    List MonthlyStats :=
  let monthlyMap := nodes.foldl (fun m node => bumpCount m (monthOf node.timestamp)) []
  sortKA (fun d : MonthlyStats => d.month)
    (monthlyMap.map (fun p => { month := p.1, count := p.2 }))

/-- Model of calculateYearlyStats with the host year key. -/
noncomputable def calculateYearlyStats (yearOf : Int → String) (nodes : List MemoryNode) :
    List YearlyStats :=
  let yearlyMap := nodes.foldl (fun m node => bumpCount m (yearOf node.timestamp)) []
  sortKA (fun d : YearlyStats => d.year)
    (yearlyMap.map (fun p => { year := p.1, count := p.2 }))

/-- One grouping step of calculateTopSites: bump the domain count and take
the max last-visit time. -/
def siteFold (m : List (String × (Nat × Int))) (node : MemoryNode) :
    List (String × (Nat × Int)) :=
  let existing := (mapGet m node.metadata.domain).getD (0, 0)
  mapSet m node.metadata.domain (existing.1 + 1, max existing.2 node.timestamp)

/-- TopSite entry from one grouped domain record. -/
noncomputable def mkTopSite (total : Nat) (p : String × (Nat × Int)) : TopSite where
  domain := p.1
  count := p.2.1
  percentage := ((p.2.1 : ℝ) / (total : ℝ)) * 100
  lastVisit := p.2.2

/-- Model of calculateTopSites: group by domain, percentage of the corpus,
sort by count descending, slice to the top 20. -/
noncomputable def calculateTopSites (nodes : List MemoryNode) : List TopSite :=
  let domainMap := nodes.foldl siteFold []
  let total := nodes.length
  (sortKD (fun s : TopSite => s.count) (domainMap.map (mkTopSite total))).take 20

/-- Category table of categorizeUrl, in the priority order of the source.
Every category key is in the priority list, so the residual second loop of
the source (over keys outside the priority order) never fires and is not
modelled. -/
def categoryTable : List (String × List String) :=
  [("coding", ["leetcode", "hackerrank", "codeforces", "codewars", "atcoder",
      "topcoder", "spoj", "projecteuler", "codechef"]),
    ("ai", ["gemini", "claude", "chatgpt", "openai", "anthropic", "perplexity",
      "poe", "bard"]),
    ("developer", ["github", "gitlab", "bitbucket", "cursor", "vscode",
      "stackoverflow", "dev.to", "github.io", "git", "code"]),
    ("documentation", ["docs.", "developer.", "developers.", "learn.", "api.",
      "guide.", "reference.", "wiki.", "documentation.", "docs.nvidia",
      "developer.nvidia", "learn.microsoft", "docs.microsoft",
      "developer.microsoft", "docs.google", "developers.google", "docs.aws",
      "docs.github", "docs.gitlab", "docs.docker", "kubernetes.io/docs",
      "react.dev", "vuejs.org", "angular.io/docs", "nodejs.org/docs",
      "python.org/doc", "docs.python", "dev.mozilla.org",
      "developer.mozilla.org", "readthedocs.io", "gitbook.io", "devdocs.io"]),
    ("research", ["arxiv", "pubmed", "scholar.google", "researchgate",
      "academia.edu", "jstor", "ieee", "acm.org", "springer", "nature.com",
      "science.org", "cell.com", "plos.org", "biorxiv", "medrxiv"]),
    ("shopping", ["amazon", "ebay", "walmart", "etsy", "alibaba", "flipkart",
      "shopify", "bigcommerce", "target", "bestbuy"]),
    ("travel", ["booking", "airbnb", "expedia", "tripadvisor", "kayak",
      "hotels", "skyscanner", "makemytrip", "goibibo", "agoda"]),
    ("health", ["webmd", "healthline", "mayoclinic", "headspace", "calm",
      "myfitnesspal", "fitbit", "nhs.uk", "practo"]),
    ("food", ["allrecipes", "foodnetwork", "tasty", "minimalistbaker",
      "seriouseats", "yelp", "zomato", "swiggy", "ubereats"]),
    ("entertainment", ["netflix", "youtube", "spotify", "twitch", "hulu",
      "disneyplus", "primevideo", "hotstar", "apple.com/tv", "steam"]),
    ("jobs", ["linkedin", "indeed", "glassdoor", "naukri", "monster",
      "internshala", "angellist", "stackoverflow.com/jobs"]),
    ("social", ["facebook", "instagram", "twitter", "reddit", "tiktok",
      "pinterest", "snapchat", "telegram", "whatsapp", "discord"]),
    ("education", ["coursera", "udemy", "edx", "khanacademy", "skillshare",
      "linkedin.com/learning", "pluralsight", "udacity", "byju"]),
    ("news", ["bbc", "cnn", "nytimes", "theguardian", "reuters",
      "hindustantimes", "timesofindia", "medium", "substack"]),
    ("nonprofit", ["wikipedia", "wikimedia", "redcross", "unicef", "wwf",
      "greenpeace", "amnesty", "doctorswithoutborders"]),
    ("corporate", ["about", "careers", "company", "corporate", "investor"]),
    ("professional", ["bloomberg", "forbes", "wsj", "morningstar",
      "marketwatch", "investing", "tradingview"]),
    ("portfolio", ["behance", "dribbble", "deviantart", "artstation",
      "github.io", "portfolio", "wix.com/website"]),
    ("government", [".gov", "irs.gov", "usa.gov", "nic.in", "india.gov",
      "mygov"])]

/-- Model of categorizeUrl, parameterized by the host URL parser hostnameOf
(new URL(url).hostname, none when parsing throws): the first category in
priority order with a domain keyword contained in the lowercased hostname,
else miscellaneous. -/
def categorizeUrl (hostnameOf : String → Option String) (url : String) : String :=
  match hostnameOf url with
  | none => "miscellaneous"
  | some host =>
      let hostname := lowerStr host
      match categoryTable.find?
          (fun cat => cat.2.any (fun d => strIncl hostname (lowerStr d))) with
      | some cat => cat.1
      | none => "miscellaneous"

/-- The category key of a node as calculateTopCategories computes it:
node.url with the https domain fallback for a falsy (empty) url. -/
def nodeCategoryKey (categorize : String → String) (node : MemoryNode) : String :=
  categorize (if node.url = "" then
    String.append "https://" node.metadata.domain else node.url)

/-- TopCategory entry from one grouped category record. -/
noncomputable def mkTopCategory (total : Nat) (p : String × Nat) : TopCategory where
  category := p.1
  count := p.2
  percentage := ((p.2 : ℝ) / (total : ℝ)) * 100

/-- Model of calculateTopCategories: group by category, percentage of the
corpus, sort by count descending, slice to the top 15. -/
noncomputable def calculateTopCategories (categorize : String → String)
    (nodes : List MemoryNode) : List TopCategory :=
  let categoryMap := nodes.foldl (fun m node => bumpCount m (nodeCategoryKey categorize node)) []
  let total := nodes.length
  (sortKD (fun c : TopCategory => c.count) (categoryMap.map (mkTopCategory total))).take 15

/-- Keys of the grouping map of calculateTopCategories: the distinct category
values of the corpus, in first-occurrence order. -/
noncomputable def distinctCategories (categorize : String → String)
    (nodes : List MemoryNode) : List String :=
  (nodes.foldl (fun m node => bumpCount m (nodeCategoryKey categorize node)) []).map Prod.fst

/-- Keys of the grouping map of calculateTopSites: the distinct domains of
the corpus, in first-occurrence order. -/
def distinctDomains (nodes : List MemoryNode) : List String :=
  (nodes.foldl siteFold []).map Prod.fst

/-- The analytics ordering of the corpus: the source sorts the loaded array
in place ascending by timestamp, so every statistic is computed on the sorted
array. -/
def analyticsSorted (nodes : List MemoryNode) : List MemoryNode :=
  sortKA (fun n : MemoryNode => n.timestamp) nodes

/-- Model of AnalyticsService.getAnalytics over the loaded window of nodes
(the up-to-10000 most recent), parameterized by the host calendar functions,
the host URL parser and Date.now(). -/
noncomputable def getAnalytics (dayOf monthOf yearOf : Int → String)
    (hostnameOf : String → Option String) (now : Int) (allNodes : List MemoryNode) :
    AnalyticsData :=
  if allNodes.length = 0 then
    { daily := [], monthly := [], yearly := [], topSites := [], topCategories := [],
      totalPages := 0, uniqueDomains := 0, dateRangeStart := now, dateRangeEnd := now }
  else
    let sortedNodes := analyticsSorted allNodes
    { daily := calculateDailyStats dayOf sortedNodes
      monthly := calculateMonthlyStats monthOf sortedNodes
      yearly := calculateYearlyStats yearOf sortedNodes
      topSites := calculateTopSites sortedNodes
      topCategories := calculateTopCategories (categorizeUrl hostnameOf) sortedNodes
      totalPages := sortedNodes.length
      uniqueDomains := (sortedNodes.map (fun n => n.metadata.domain)).dedup.length
      dateRangeStart := ((sortedNodes.head?).map (fun n => n.timestamp)).getD now
      dateRangeEnd := ((sortedNodes.getLast?).map (fun n => n.timestamp)).getD now }

theorem sum_bumpCount (k : String) :
    ∀ m : List (String × Nat),
    ((bumpCount m k).map Prod.snd).sum = (m.map Prod.snd).sum + 1 := by
  intro m
  induction m with
  | nil => simp [bumpCount, mapGet, mapSet]
  | cons p rest ih =>
      obtain ⟨k', c⟩ := p
      by_cases h : k' = k
      · subst h
        have hstep : bumpCount ((k', c) :: rest) k' = (k', c + 1) :: rest := by
          simp [bumpCount, mapGet, mapSet]
        rw [hstep]
        simp only [List.map_cons, List.sum_cons]
        omega
      · have hstep : bumpCount ((k', c) :: rest) k = (k', c) :: bumpCount rest k := by
          simp [bumpCount, mapGet, mapSet, h]
        rw [hstep]
        simp only [List.map_cons, List.sum_cons, ih]
        omega

theorem sum_fold_bump (f : MemoryNode → String) :
    ∀ (nodes : List MemoryNode) (m0 : List (String × Nat)),
    ((nodes.foldl (fun m node => bumpCount m (f node)) m0).map Prod.snd).sum =
      (m0.map Prod.snd).sum + nodes.length := by
  intro nodes
  induction nodes with
  | nil => intro m0; simp
  | cons n rest ih =>
      intro m0
      simp only [List.foldl_cons, ih, sum_bumpCount, List.length_cons]
      omega

theorem sum_siteFold (node : MemoryNode) :
    ∀ m : List (String × (Nat × Int)),
    ((siteFold m node).map (fun p => p.2.1)).sum =
      (m.map (fun p => p.2.1)).sum + 1 := by
  intro m
  induction m with
  | nil => simp [siteFold, mapGet, mapSet]
  | cons p rest ih =>
      obtain ⟨k', v⟩ := p
      by_cases h : k' = node.metadata.domain
      · subst h
        have hstep : siteFold ((node.metadata.domain, v) :: rest) node =
            (node.metadata.domain, (v.1 + 1, max v.2 node.timestamp)) :: rest := by
          simp [siteFold, mapGet, mapSet]
        rw [hstep]
        simp only [List.map_cons, List.sum_cons]
        omega
      · have hstep : siteFold ((k', v) :: rest) node = (k', v) :: siteFold rest node := by
          simp [siteFold, mapGet, mapSet, h]
        rw [hstep]
        simp only [List.map_cons, List.sum_cons, ih]
        omega

theorem sum_fold_site :
    ∀ (nodes : List MemoryNode) (m0 : List (String × (Nat × Int))),
    ((nodes.foldl siteFold m0).map (fun p => p.2.1)).sum =
      (m0.map (fun p => p.2.1)).sum + nodes.length := by
  intro nodes
  induction nodes with
  | nil => intro m0; simp
  | cons n rest ih =>
      intro m0
      simp only [List.foldl_cons, ih, sum_siteFold, List.length_cons]
      omega

theorem sum_map_pct (T : ℝ) :
    ∀ l : List Nat,
    (l.map (fun c : Nat => ((c : ℝ) / T) * 100)).sum = ((l.sum : ℝ) / T) * 100 := by
  intro l
  induction l with
  | nil => simp
  | cons c rest ih =>
      simp only [List.map_cons, List.sum_cons, ih, Nat.cast_add]
      ring

theorem daily_sum (dayOf : Int → String) (ns : List MemoryNode) :
    ((calculateDailyStats dayOf ns).map (fun d => d.count)).sum = ns.length := by
  simp only [calculateDailyStats]
  rw [((sortKA_perm (fun d : DailyStats => d.date) _).map (fun d => d.count)).sum_eq,
    List.map_map]
  have hcomp : ((fun d : DailyStats => d.count) ∘
      (fun p : String × Nat => ({ date := p.1, count := p.2 } : DailyStats))) = Prod.snd := rfl
  rw [hcomp]
  simpa using sum_fold_bump (fun node => dayOf node.timestamp) ns []

theorem topCats_sum (categorize : String → String) (ns : List MemoryNode)
    (hle : (distinctCategories categorize ns).length ≤ 15) :
    ((calculateTopCategories categorize ns).map (fun c => c.count)).sum = ns.length := by
  simp only [calculateTopCategories]
  have hmaplen :
      ((ns.foldl (fun m node => bumpCount m (nodeCategoryKey categorize node)) []).map
        (mkTopCategory ns.length)).length ≤ 15 := by
    rw [List.length_map]
    simpa [distinctCategories] using hle
  have hsortlen : (sortKD (fun c : TopCategory => c.count)
      ((ns.foldl (fun m node => bumpCount m (nodeCategoryKey categorize node)) []).map
        (mkTopCategory ns.length))).length ≤ 15 := by
    rw [(sortKD_perm _ _).length_eq]
    exact hmaplen
  rw [List.take_of_length_le hsortlen,
    ((sortKD_perm (fun c : TopCategory => c.count) _).map (fun c => c.count)).sum_eq,
    List.map_map]
  have hcomp : ((fun c : TopCategory => c.count) ∘ mkTopCategory ns.length) = Prod.snd := rfl
  rw [hcomp]
  simpa using sum_fold_bump (fun node => nodeCategoryKey categorize node) ns []

theorem topSites_pct_sum (ns : List MemoryNode) (hne : ns.length ≠ 0)
    (hle : (distinctDomains ns).length ≤ 20) :
    ((calculateTopSites ns).map (fun s => s.percentage)).sum = 100 := by
  simp only [calculateTopSites]
  have hmaplen : ((ns.foldl siteFold []).map (mkTopSite ns.length)).length ≤ 20 := by
    rw [List.length_map]
    simpa [distinctDomains] using hle
  have hsortlen : (sortKD (fun s : TopSite => s.count)
      ((ns.foldl siteFold []).map (mkTopSite ns.length))).length ≤ 20 := by
    rw [(sortKD_perm _ _).length_eq]
    exact hmaplen
  rw [List.take_of_length_le hsortlen,
    ((sortKD_perm (fun s : TopSite => s.count) _).map (fun s => s.percentage)).sum_eq,
    List.map_map]
  have hcomp : ((fun s : TopSite => s.percentage) ∘ mkTopSite ns.length) =
      (fun c : Nat => ((c : ℝ) / (ns.length : ℝ)) * 100) ∘
        (fun p : String × (Nat × Int) => p.2.1) :=
    rfl
  rw [hcomp, ← List.map_map, sum_map_pct]
  have hsum : ((ns.foldl siteFold []).map (fun p : String × (Nat × Int) => p.2.1)).sum =
      ns.length := by
    simpa using sum_fold_site ns []
  rw [hsum, div_self (by exact_mod_cast hne)]
  norm_num

/-- C8 (amended): for every nonempty loaded corpus (the analytics window)
whose nodes group into at most 15 distinct categories and at most 20 distinct
domains, getAnalytics satisfies sum daily counts = totalPages = sum
topCategories counts, and the topSites percentages over all domains sum to
exactly 100 in the real-number model; totalPages is the corpus size. The
category and domain bounds are forced by the slices to the top 15 categories
and top 20 sites. -/
theorem C8_analytics_invariant (dayOf monthOf yearOf : Int → String)
    (hostnameOf : String → Option String) (now : Int) (nodes : List MemoryNode)
    (hne : nodes ≠ [])
    (hcats : (distinctCategories (categorizeUrl hostnameOf)
      (analyticsSorted nodes)).length ≤ 15)
    (hdoms : (distinctDomains (analyticsSorted nodes)).length ≤ 20) :
    ((getAnalytics dayOf monthOf yearOf hostnameOf now nodes).daily.map
        (fun d => d.count)).sum =
      (getAnalytics dayOf monthOf yearOf hostnameOf now nodes).totalPages ∧
    ((getAnalytics dayOf monthOf yearOf hostnameOf now nodes).topCategories.map
        (fun c => c.count)).sum =
      (getAnalytics dayOf monthOf yearOf hostnameOf now nodes).totalPages ∧
    ((getAnalytics dayOf monthOf yearOf hostnameOf now nodes).topSites.map
        (fun s => s.percentage)).sum = 100 ∧
    (getAnalytics dayOf monthOf yearOf hostnameOf now nodes).totalPages = nodes.length := by
  have hlen0 : ¬ nodes.length = 0 := fun h => hne (List.length_eq_zero.mp h)
  have hslen : (analyticsSorted nodes).length = nodes.length :=
    (sortKA_perm _ _).length_eq
  refine ⟨?_, ?_, ?_, ?_⟩ <;> simp only [getAnalytics, if_neg hlen0]
  · exact daily_sum dayOf (analyticsSorted nodes)
  · exact topCats_sum _ _ hcats
  · exact topSites_pct_sum _ (by rw [hslen]; exact hlen0) hdoms
  · exact hslen

/-- Concrete node whose url, title, id and domain are all the given host. -/
def mkNodeU (u : String) : MemoryNode where
  id := u
  url := u
  title := u
  readableText := ""
  timestamp := 0
  keywords := []
  metadata := { domain := u }

/-- The 16 hostnames of the C8 counterexample, one per distinct category in
table priority order: coding, ai, developer, documentation, research,
shopping, travel, health, food, entertainment, jobs, social, education, news,
nonprofit, corporate. -/
def cexUrls : List String :=
  ["leetcode", "chatgpt", "github", "docs.x", "arxiv", "amazon", "airbnb",
    "webmd", "zomato", "netflix", "indeed", "reddit", "udemy", "bbc",
    "unicef", "careers"]

set_option maxRecDepth 8000 in
/-- C8 counterexample: a 16-page corpus hitting 16 distinct categories;
topCategories is sliced to its top 15 entries, so its counts sum to 15 while
totalPages is 16, refuting the claimed equality without a category bound. -/
theorem C8_analytics_counterexample :
    (getAnalytics (fun _ => "d") (fun _ => "m") (fun _ => "y") (fun s => some s) 0
      (cexUrls.map mkNodeU)).totalPages = 16 ∧
    ((getAnalytics (fun _ => "d") (fun _ => "m") (fun _ => "y") (fun s => some s) 0
      (cexUrls.map mkNodeU)).topCategories.map (fun c => c.count)).sum = 15 := by
  constructor
  · decide
  · decide

set_option maxRecDepth 8000 in
/-- Witness for C8 at a concrete one-page corpus. -/
theorem C8_analytics_invariant_witness :
    ((getAnalytics (fun _ => "d") (fun _ => "m") (fun _ => "y") (fun s => some s) 0
        [mkNodeU "github"]).daily.map (fun d => d.count)).sum =
      (getAnalytics (fun _ => "d") (fun _ => "m") (fun _ => "y") (fun s => some s) 0
        [mkNodeU "github"]).totalPages ∧
    ((getAnalytics (fun _ => "d") (fun _ => "m") (fun _ => "y") (fun s => some s) 0
        [mkNodeU "github"]).topCategories.map (fun c => c.count)).sum =
      (getAnalytics (fun _ => "d") (fun _ => "m") (fun _ => "y") (fun s => some s) 0
        [mkNodeU "github"]).totalPages ∧
    ((getAnalytics (fun _ => "d") (fun _ => "m") (fun _ => "y") (fun s => some s) 0
        [mkNodeU "github"]).topSites.map (fun s => s.percentage)).sum = 100 ∧
    (getAnalytics (fun _ => "d") (fun _ => "m") (fun _ => "y") (fun s => some s) 0
      [mkNodeU "github"]).totalPages = [mkNodeU "github"].length :=
  C8_analytics_invariant (fun _ => "d") (fun _ => "m") (fun _ => "y") (fun s => some s) 0
    [mkNodeU "github"] (by simp) (by decide) (by decide)
